import Mathlib

/-!
Verification of the `@se-oss/ip-address` library core (IPv4/IPv6 address and
CIDR value model).  The TypeScript sources are shallowly embedded here:

* strings are modelled as `List Char` (called `Str`), with `splitOn`/`joinSep`
  mirroring JavaScript `String.split` / `Array.join` for one-character
  separators;
* JavaScript `BigInt` is modelled as `Int` (arbitrary precision, signed);
  `x >> k` on BigInt is arithmetic shift, i.e. floor division by `2^k`, which
  for a positive divisor coincides with Lean's `Int` division `/` (`ediv`);
  `x & (2^k - 1)` on BigInt is `x` modulo `2^k` (two's complement view), i.e.
  `Int.emod`, which is non-negative for a positive modulus;
* a function that can `throw InvalidIPAddressError` (or crash) is modelled as
  returning `Option`, with `none` for the exceptional exit.

Every definition is translated from the repository sources
(`src/utils.ts`, `src/constants.ts`, `src/ipv4.ts`, `src/ipv6.ts`,
`src/cidr.ts`, `src/index.ts`); the corresponding source function is named in
each doc comment.
-/

namespace IPAddr

/-- Characters of a JavaScript string. -/
abbrev Str := List Char

/-- `s.split(sep)` for a one-character separator `sep` (JavaScript semantics:
`"".split(c) = [""]`, separators at either end produce empty fragments). -/
def splitOn (sep : Char) : Str → List Str
  | [] => [[]]
  | c :: cs =>
    if c = sep then [] :: splitOn sep cs
    else
      match splitOn sep cs with
      | g :: gs => (c :: g) :: gs
      | [] => [[c]]

/-- `parts.join(sep)` for a one-character separator (JavaScript semantics). -/
def joinSep (sep : Char) : List Str → Str
  | [] => []
  | [p] => p
  | p :: ps => p ++ sep :: joinSep sep ps

/-- `parts.indexOf('')`: index of the first empty fragment, if any. -/
def idxOfEmpty : List Str → Option Nat
  | [] => none
  | p :: ps => if p = [] then some 0 else (idxOfEmpty ps).map (· + 1)

/-! ### Basic lemmas about `splitOn` / `joinSep` -/

theorem splitOn_ne_nil (sep : Char) (s : Str) : splitOn sep s ≠ [] := by
  cases s with
  | nil => simp [splitOn]
  | cons c cs =>
    simp only [splitOn]
    split
    · simp
    · split <;> simp

theorem splitOn_sep_cons (sep : Char) (t : Str) :
    splitOn sep (sep :: t) = [] :: splitOn sep t := by
  simp [splitOn]

theorem splitOn_cons_of_ne {sep c : Char} (h : c ≠ sep) (t : Str) (g : Str)
    (gs : List Str) (ht : splitOn sep t = g :: gs) :
    splitOn sep (c :: t) = (c :: g) :: gs := by
  simp [splitOn, h, ht]

/-- Splitting a separator-free fragment returns just that fragment. -/
theorem splitOn_no_sep {sep : Char} : ∀ {p : Str}, sep ∉ p → splitOn sep p = [p]
  | [], _ => rfl
  | c :: cs, h => by
    have hc : c ≠ sep := fun hcs => h (hcs ▸ List.mem_cons_self c cs)
    have ih := splitOn_no_sep (p := cs) (fun hm => h (List.mem_cons_of_mem c hm))
    simp [splitOn, hc, ih]

theorem splitOn_append_sep {sep : Char} :
    ∀ {p : Str}, sep ∉ p → ∀ t, splitOn sep (p ++ sep :: t) = p :: splitOn sep t
  | [], _, t => by simp [splitOn_sep_cons]
  | c :: cs, h, t => by
    have hc : c ≠ sep := fun hcs => h (hcs ▸ List.mem_cons_self c cs)
    have ih := splitOn_append_sep (p := cs) (fun hm => h (List.mem_cons_of_mem c hm)) t
    cases hsp : splitOn sep (cs ++ sep :: t) with
    | nil => exact absurd hsp (splitOn_ne_nil sep _)
    | cons g gs =>
      rw [hsp] at ih
      cases ih
      simpa using splitOn_cons_of_ne hc (cs ++ sep :: t) cs (splitOn sep t) hsp

theorem joinSep_cons (sep : Char) (p : Str) {ps : List Str} (h : ps ≠ []) :
    joinSep sep (p :: ps) = p ++ sep :: joinSep sep ps := by
  cases ps with
  | nil => exact absurd rfl h
  | cons q qs => rfl

/-- `split` is a left inverse of `join` on separator-free fragment lists. -/
theorem splitOn_joinSep {sep : Char} :
    ∀ {ps : List Str}, ps ≠ [] → (∀ p ∈ ps, sep ∉ p) →
      splitOn sep (joinSep sep ps) = ps
  | [], h, _ => absurd rfl h
  | [p], _, hps => by
    simpa [joinSep] using splitOn_no_sep (hps p (by simp))
  | p :: q :: qs, _, hps => by
    rw [joinSep_cons sep p (by simp),
      splitOn_append_sep (hps p (by simp)),
      @splitOn_joinSep sep (q :: qs) (by simp)
        (fun r hr => hps r (List.mem_cons_of_mem p hr))]

/-- Splitting `join(A) ++ sep ++ t` peels off all fragments of `A` first. -/
theorem splitOn_joinSep_append {sep : Char} :
    ∀ {ps : List Str}, ps ≠ [] → (∀ p ∈ ps, sep ∉ p) → ∀ t,
      splitOn sep (joinSep sep ps ++ sep :: t) = ps ++ splitOn sep t
  | [], h, _, _ => absurd rfl h
  | [p], _, hps, t => by
    simpa [joinSep] using splitOn_append_sep (hps p (by simp)) t
  | p :: q :: qs, _, hps, t => by
    rw [joinSep_cons sep p (by simp), List.append_assoc, List.cons_append,
      splitOn_append_sep (hps p (by simp)),
      @splitOn_joinSep_append sep (q :: qs) (by simp)
        (fun r hr => hps r (List.mem_cons_of_mem p hr))]
    rfl

theorem idxOfEmpty_none : ∀ {ps : List Str}, (∀ p ∈ ps, p ≠ []) → idxOfEmpty ps = none
  | [], _ => rfl
  | p :: qs, h => by
    have := @idxOfEmpty_none qs (fun r hr => h r (List.mem_cons_of_mem p hr))
    simp [idxOfEmpty, h p (by simp), this]

theorem idxOfEmpty_append : ∀ {ps : List Str}, (∀ p ∈ ps, p ≠ []) → ∀ t,
    idxOfEmpty (ps ++ [] :: t) = some ps.length
  | [], _, t => by simp [idxOfEmpty]
  | p :: qs, h, t => by
    have := @idxOfEmpty_append qs (fun r hr => h r (List.mem_cons_of_mem p hr)) t
    simp [idxOfEmpty, h p (by simp), this]

/-! ### Digits, decimal and hexadecimal text

JavaScript `BigInt.prototype.toString(10)` / `toString(16)` produce minimal
decimal / lowercase-hexadecimal digit strings; `parseInt(s, 10)` /
`parseInt(s, 16)` read them back. -/

/-- The character for one digit value (`0`–`15`), as produced by
JavaScript `Number/BigInt.toString` (lowercase). -/
def digitChar (n : Nat) : Char :=
  match n with
  | 0 => '0' | 1 => '1' | 2 => '2' | 3 => '3' | 4 => '4'
  | 5 => '5' | 6 => '6' | 7 => '7' | 8 => '8' | 9 => '9'
  | 10 => 'a' | 11 => 'b' | 12 => 'c' | 13 => 'd' | 14 => 'e' | 15 => 'f'
  | _ => '*'

/-- Regex class `\d` = `[0-9]`. -/
def isDigit (c : Char) : Bool :=
  decide (48 ≤ c.toNat) && decide (c.toNat ≤ 57)

/-- Regex class `[0-9a-fA-F]`. -/
def isHexDigit (c : Char) : Bool :=
  isDigit c || (decide (97 ≤ c.toNat) && decide (c.toNat ≤ 102))
    || (decide (65 ≤ c.toNat) && decide (c.toNat ≤ 70))

/-- Numeric value of one decimal digit character. -/
def decDigitVal (c : Char) : Nat := c.toNat - 48

/-- Numeric value of one hexadecimal digit character (either case). -/
def hexDigitVal (c : Char) : Nat :=
  if isDigit c then c.toNat - 48
  else if decide (97 ≤ c.toNat) then c.toNat - 87
  else c.toNat - 55

/-- Digit expansion in base `b` with explicit fuel, so that the definition is
structurally recursive (hence computable by the kernel).  With fuel above `n`
it agrees with the usual repeated-division expansion. -/
def natToBaseAux (b : Nat) : Nat → Nat → Str
  | 0, _ => []
  | f + 1, n =>
    if n < b then [digitChar n]
    else natToBaseAux b f (n / b) ++ [digitChar (n % b)]

/-- `n.toString(10)` (digits of `n` in base 10, minimal form). -/
def natToDec (n : Nat) : Str := natToBaseAux 10 (n + 1) n

/-- `n.toString(16)` (digits of `n` in base 16, minimal lowercase form). -/
def natToHex (n : Nat) : Str := natToBaseAux 16 (n + 1) n

theorem natToBaseAux_congr {b : Nat} (hb : 2 ≤ b) :
    ∀ (n f₁ f₂ : Nat), n < f₁ → n < f₂ → natToBaseAux b f₁ n = natToBaseAux b f₂ n := by
  intro n
  induction n using Nat.strong_induction_on with
  | _ n ih =>
    intro f₁ f₂ h₁ h₂
    match f₁, f₂ with
    | g₁ + 1, g₂ + 1 =>
      by_cases hn : n < b
      · simp [natToBaseAux, hn]
      · have hd : n / b < n := Nat.div_lt_self (by omega) (by omega)
        simp only [natToBaseAux, hn, if_false]
        congr 1
        exact ih (n / b) hd g₁ g₂ (by omega) (by omega)

theorem natToDec_eq (n : Nat) :
    natToDec n = if n < 10 then [digitChar n] else natToDec (n / 10) ++ [digitChar (n % 10)] := by
  by_cases h : n < 10
  · simp [natToDec, natToBaseAux, h]
  · have hd : n / 10 < n := Nat.div_lt_self (by omega) (by omega)
    simp only [natToDec, natToBaseAux, h, if_false]
    congr 1
    exact natToBaseAux_congr (by omega) (n / 10) n (n / 10 + 1) (by omega) (by omega)

theorem natToHex_eq (n : Nat) :
    natToHex n = if n < 16 then [digitChar n] else natToHex (n / 16) ++ [digitChar (n % 16)] := by
  by_cases h : n < 16
  · simp [natToHex, natToBaseAux, h]
  · have hd : n / 16 < n := Nat.div_lt_self (by omega) (by omega)
    simp only [natToHex, natToBaseAux, h, if_false]
    congr 1
    exact natToBaseAux_congr (by omega) (n / 16) n (n / 16 + 1) (by omega) (by omega)

/-- `parseInt(s, 10)` on an all-digit string. -/
def decValue (s : Str) : Nat := s.foldl (fun a c => a * 10 + decDigitVal c) 0

/-- `parseInt(s, 16)` on an all-hex-digit string. -/
def hexValue (s : Str) : Nat := s.foldl (fun a c => a * 16 + hexDigitVal c) 0

/-! ### Lemmas about digit text -/

theorem digitChar_spec : ∀ d : Fin 16,
    hexDigitVal (digitChar d.val) = d.val ∧ isHexDigit (digitChar d.val) = true ∧
      (d.val < 10 → isDigit (digitChar d.val) = true ∧
        decDigitVal (digitChar d.val) = d.val) := by decide

theorem digitChar_val {d : Nat} (h : d < 16) :
    hexDigitVal (digitChar d) = d ∧ isHexDigit (digitChar d) = true ∧
      (d < 10 → isDigit (digitChar d) = true ∧ decDigitVal (digitChar d) = d) :=
  digitChar_spec ⟨d, h⟩

theorem decValue_append_digit (s : Str) (c : Char) :
    decValue (s ++ [c]) = decValue s * 10 + decDigitVal c := by
  simp [decValue, List.foldl_append]

theorem hexValue_append_digit (s : Str) (c : Char) :
    hexValue (s ++ [c]) = hexValue s * 16 + hexDigitVal c := by
  simp [hexValue, List.foldl_append]

theorem decValue_natToDec (n : Nat) : decValue (natToDec n) = n := by
  induction n using Nat.strong_induction_on with
  | _ n ih =>
    by_cases h : n < 10
    · have hd := ((digitChar_val (d := n) (by omega)).2.2 h).2
      rw [natToDec_eq]
      simp only [h, if_true]
      show decValue ([] ++ [digitChar n]) = n
      rw [decValue_append_digit, hd]
      simp [decValue]
    · rw [natToDec_eq]
      simp only [h, if_false]
      rw [decValue_append_digit, ih (n / 10) (Nat.div_lt_self (by omega) (by omega))]
      have h10 : n % 10 < 10 := Nat.mod_lt _ (by omega)
      have hd := ((digitChar_val (d := n % 10) (by omega)).2.2 h10).2
      rw [hd]
      omega

theorem hexValue_natToHex (n : Nat) : hexValue (natToHex n) = n := by
  induction n using Nat.strong_induction_on with
  | _ n ih =>
    by_cases h : n < 16
    · have hd := (digitChar_val (d := n) h).1
      rw [natToHex_eq]
      simp only [h, if_true]
      show hexValue ([] ++ [digitChar n]) = n
      rw [hexValue_append_digit, hd]
      simp [hexValue]
    · rw [natToHex_eq]
      simp only [h, if_false]
      rw [hexValue_append_digit, ih (n / 16) (Nat.div_lt_self (by omega) (by omega))]
      have h16 : n % 16 < 16 := Nat.mod_lt _ (by omega)
      have hd := (digitChar_val (d := n % 16) h16).1
      rw [hd]
      omega

theorem natToDec_ne_nil (n : Nat) : natToDec n ≠ [] := by
  rw [natToDec_eq]; split <;> simp

theorem natToHex_ne_nil (n : Nat) : natToHex n ≠ [] := by
  rw [natToHex_eq]; split <;> simp

theorem natToDec_all_digit (n : Nat) : ∀ c ∈ natToDec n, isDigit c = true := by
  induction n using Nat.strong_induction_on with
  | _ n ih =>
    by_cases h : n < 10
    · have hd := ((digitChar_val (d := n) (by omega)).2.2 h).1
      rw [natToDec_eq]
      simp [h, hd]
    · rw [natToDec_eq]
      simp only [h, if_false]
      intro c hc
      rcases List.mem_append.mp hc with hc | hc
      · exact ih (n / 10) (Nat.div_lt_self (by omega) (by omega)) c hc
      · have h10 : n % 10 < 10 := Nat.mod_lt _ (by omega)
        have hd := ((digitChar_val (d := n % 10) (by omega)).2.2 h10).1
        simpa [List.mem_singleton.mp hc] using hd

theorem natToHex_all_hex (n : Nat) : ∀ c ∈ natToHex n, isHexDigit c = true := by
  induction n using Nat.strong_induction_on with
  | _ n ih =>
    by_cases h : n < 16
    · have hd := (digitChar_val (d := n) h).2.1
      rw [natToHex_eq]
      simp [h, hd]
    · rw [natToHex_eq]
      simp only [h, if_false]
      intro c hc
      rcases List.mem_append.mp hc with hc | hc
      · exact ih (n / 16) (Nat.div_lt_self (by omega) (by omega)) c hc
      · have h16 : n % 16 < 16 := Nat.mod_lt _ (by omega)
        have hd := (digitChar_val (d := n % 16) h16).2.1
        simpa [List.mem_singleton.mp hc] using hd

theorem natToDec_length_le : ∀ (k : Nat) (n : Nat), 0 < k → n < 10 ^ k →
    (natToDec n).length ≤ k := by
  intro k
  induction k with
  | zero => omega
  | succ k ih =>
    intro n _ hn
    by_cases h : n < 10
    · rw [natToDec_eq]; simp [h]
    · rw [natToDec_eq]
      simp only [h, if_false, List.length_append, List.length_singleton]
      have hk : 0 < k := by
        by_contra hk0
        have : k = 0 := by omega
        subst this
        simp at hn
        omega
      have : n / 10 < 10 ^ k := by
        rw [Nat.div_lt_iff_lt_mul (by omega)]
        calc n < 10 ^ (k + 1) := hn
        _ = 10 ^ k * 10 := by ring
      have := ih (n / 10) hk this
      omega

theorem natToHex_length_le : ∀ (k : Nat) (n : Nat), 0 < k → n < 16 ^ k →
    (natToHex n).length ≤ k := by
  intro k
  induction k with
  | zero => omega
  | succ k ih =>
    intro n _ hn
    by_cases h : n < 16
    · rw [natToHex_eq]; simp [h]
    · rw [natToHex_eq]
      simp only [h, if_false, List.length_append, List.length_singleton]
      have hk : 0 < k := by
        by_contra hk0
        have : k = 0 := by omega
        subst this
        simp at hn
        omega
      have : n / 16 < 16 ^ k := by
        rw [Nat.div_lt_iff_lt_mul (by omega)]
        calc n < 16 ^ (k + 1) := hn
        _ = 16 ^ k * 16 := by ring
      have := ih (n / 16) hk this
      omega

/-- Digit characters have code points 48–57, 97–102 or 65–70; the separator
and marker characters of IP notation do not. -/
theorem hex_ne_special {c : Char} (h : isHexDigit c = true) :
    c ≠ ':' ∧ c ≠ '.' ∧ c ≠ '%' ∧ c ≠ '/' := by
  refine ⟨?_, ?_, ?_, ?_⟩ <;>
    · intro hc
      subst hc
      exact absurd h (by decide)

theorem digit_ne_special {c : Char} (h : isDigit c = true) :
    c ≠ ':' ∧ c ≠ '.' ∧ c ≠ '%' ∧ c ≠ '/' :=
  hex_ne_special (by simp [isHexDigit, h])

/-! ### The integer codec (`src/utils.ts`) -/

/-- `ipv4ToBigInt` (utils.ts): split on `.`; require exactly 4 fragments, each
matching `/^\d+$/` with numeric value at most 255; fold as base-256 digits with
`(acc << 8n) | octet`.  `none` models `throw InvalidIPAddressError`. -/
def ipv4ToBigInt (ip : Str) : Option Nat :=
  let parts := splitOn '.' ip
  if parts.length = 4 ∧
      parts.all (fun p => !p.isEmpty && p.all isDigit && decide (decValue p ≤ 255)) then
    some (parts.foldl (fun acc p => (acc <<< 8) ||| decValue p) 0)
  else none

/-- The JavaScript line terminators (LF, CR, U+2028 LINE SEPARATOR, U+2029
PARAGRAPH SEPARATOR): the characters regex `.` does not match. -/
def isLineTerm (c : Char) : Bool :=
  decide (c = '\n') || decide (c = '\r') ||
    decide (c = Char.ofNat 0x2028) || decide (c = Char.ofNat 0x2029)

/-- The maximal line-terminator-free runs of `s`, in order: the only regions
inside which `/(.+)%(.+)/` can match. -/
def splitTerm : Str → List Str
  | [] => [[]]
  | c :: cs =>
    if isLineTerm c then [] :: splitTerm cs
    else
      match splitTerm cs with
      | g :: gs => (c :: g) :: gs
      | [] => [[c]]

/-- The backtracking of `(.+)%(.+)` anchored at the start of one
line-terminator-free run `r`: the split at the last `%` of `r` that is
followed by at least one run character (greedy group 1 before that `%`; a
returned empty first component means the only such `%` is the run's first
character, so no split with non-empty group 1 exists). -/
def splitLastPercent : Str → Option (Str × Str)
  | [] => none
  | c :: cs =>
    match splitLastPercent cs with
    | some (a, b) => some (c :: a, b)
    | none => if c = '%' ∧ cs ≠ [] then some ([], cs) else none

/-- The zone-stripping step of `ipv6ToBigInt`:
`ip = /(.+)%(.+)/.exec(ip)![1]`.  The unanchored search is attempted at each
position from the left; since `.` does not match line terminators, a match
lies inside one maximal terminator-free run and starts at that run's start,
its group 1 ending at the last `%` of the run that has run text on both
sides; the first run holding such a `%` wins.  `none` models `exec`
returning `null`, on which the source crashes (`null![1]`). -/
def stripZone (s : Str) : Option Str :=
  (splitTerm s).findSome? (fun r =>
    match splitLastPercent r with
    | some (a, _) => if a = [] then none else some a
    | none => none)

/-- `expandIPv6Shorthand` (utils.ts): find the first empty fragment (the `::`
marker) and `splice` in `8 - parts.length + 1` empty fragments.  When
`parts.length > 9` the count is negative and `Array(negative)` throws a
`RangeError`; that crash is modelled as `none`. -/
def expandIPv6Shorthand (parts : List Str) : Option (List Str) :=
  match idxOfEmpty parts with
  | none => some parts
  | some i =>
    if parts.length ≤ 9 then
      some (parts.take i ++ List.replicate (9 - parts.length) [] ++ parts.drop (i + 1))
    else none

/-- The IPv4-mapped pattern `/^(::ffff:)(\d{1,3}\.\d{1,3}\.\d{1,3}\.\d{1,3})$/`
of `ipv6ToBigInt`; returns the embedded dotted-quad text on a match. -/
def v4MappedSplit (ip : Str) : Option Str :=
  if ip.take 7 = [':', ':', 'f', 'f', 'f', 'f', ':'] then
    let rest := ip.drop 7
    let qs := splitOn '.' rest
    if qs.length = 4 ∧
        qs.all (fun q => !q.isEmpty && decide (q.length ≤ 3) && q.all isDigit) then
      some rest
    else none
  else none

/-- The base-65536 accumulation loop of `ipv6ToBigInt`
(`number += n * 2n ** exp; exp += 16n` over the reversed group list). -/
def sumExp : List Nat → Nat → Nat
  | [], _ => 0
  | v :: r, e => v * 2 ^ e + sumExp r (e + 16)

/-- One group's numeric value: `part === '' ? 0n : BigInt(parseInt(part, 16))`. -/
def groupVal (p : Str) : Nat := if p = [] then 0 else hexValue p

/-- `ipv6ToBigInt` (utils.ts) after the zone strip: the IPv4-mapped shortcut,
otherwise split on `:`, expand `::`, validate the 8 fragments
(`/^[0-9a-fA-F]*$/`, length at most 4) and fold base-65536. -/
def ipv6Core (ip : Str) : Option Nat :=
  match v4MappedSplit ip with
  | some quad => (ipv4ToBigInt quad).map (fun v4 => ((0xffff : Nat) <<< 32) ||| v4)
  | none =>
    match expandIPv6Shorthand (splitOn ':' ip) with
    | none => none
    | some parts =>
      if parts.length = 8 ∧
          parts.all (fun p => p.all isHexDigit && decide (p.length ≤ 4)) then
        some (sumExp ((parts.map groupVal).reverse) 0)
      else none

/-- `ipv6ToBigInt` (utils.ts): strip a `%zone` suffix when a `%` is present,
then run the core conversion. -/
def ipv6ToBigInt (ip : Str) : Option Nat :=
  if '%' ∈ ip then (stripZone ip).bind ipv6Core else ipv6Core ip

/-- `fastIpVersion` (utils.ts): `.` means IPv4, otherwise `:` means IPv6,
otherwise throw. -/
def fastIpVersion (ip : Str) : Option Nat :=
  if '.' ∈ ip then some 4 else if ':' ∈ ip then some 6 else none

/-- `ipToBigInt` (utils.ts) with an explicit version argument. -/
def ipToBigInt (ip : Str) (version : Nat) : Option Nat :=
  if version = 4 then ipv4ToBigInt ip else ipv6ToBigInt ip

/-- BigInt `x >> k` (arithmetic shift): floor division, which equals `Int`
division `/` for the positive divisor `2^k`. -/
def jsShr (n : Int) (k : Nat) : Int := n / (2 ^ k : Nat)

/-- BigInt `x & (2^k - 1)` in two's complement: the non-negative residue
`x mod 2^k`, i.e. `Int.emod`. -/
def jsMask (n : Int) (k : Nat) : Nat := (n % ((2 ^ k : Nat) : Int)).toNat

/-- The IPv4 arm of `bigIntToIp` (utils.ts):
`` `${(n >> 24n) & 0xffn}.${(n >> 16n) & 0xffn}.${(n >> 8n) & 0xffn}.${n & 0xffn}` ``. -/
def bigIntToIpv4 (number : Int) : Str :=
  joinSep '.'
    [natToDec (jsMask (jsShr number 24) 8), natToDec (jsMask (jsShr number 16) 8),
     natToDec (jsMask (jsShr number 8) 8), natToDec (jsMask number 8)]

/-- `part.padStart(4, '0')`. -/
def padTo4 (s : Str) : Str := List.replicate (4 - s.length) '0' ++ s

/-- The `current`/`longest` state of the `compressIPv6` scan loop.  The source
uses a `Set` of consecutive indices; a set `{i, …, i+size-1}` is represented
as the pair `(start, size)`. -/
abbrev ZRun := Nat × Nat

/-- The scan loop of `compressIPv6` (utils.ts): walk the fragments, growing
`current` over literal `"0"` fragments and promoting it to `longest` when a
run ends and is strictly longer. -/
def compressScan : List Str → Nat → Option ZRun → Option ZRun → Option ZRun × Option ZRun
  | [], _, longest, current => (longest, current)
  | p :: rest, i, longest, current =>
    if p = ['0'] then
      let cur : ZRun := match current with
        | none => (i, 1)
        | some r => (r.1, r.2 + 1)
      compressScan rest (i + 1) longest (some cur)
    else
      match current with
      | some c =>
        let newLongest : Option ZRun := match longest with
          | none => some c
          | some l => if l.2 < c.2 then some c else some l
        compressScan rest (i + 1) newLongest none
      | none => compressScan rest (i + 1) longest none

/-- The post-loop adjustment of `compressIPv6`:
`if ((!longest && current) || (current && longest && current.size > longest.size)) longest = current`. -/
def selectRun (parts : List Str) : Option ZRun :=
  match compressScan parts 0 none none with
  | (none, some c) => some c
  | (some l, some c) => if l.2 < c.2 then some c else some l
  | (l, none) => l

/-- `dropLeadingColons` consumes the rest of the first colon run. -/
def dropLeadingColons : Str → Str
  | [] => []
  | c :: t => if c = ':' then dropLeadingColons t else c :: t

/-- `s.replace(/:{2,}/, '::')`: the first maximal run of two or more colons is
replaced by exactly two; everything after it is copied verbatim. -/
def collapseColons : Str → Str
  | [] => []
  | [c] => [c]
  | a :: b :: t =>
    if a = ':' ∧ b = ':' then ':' :: ':' :: dropLeadingColons t
    else a :: collapseColons (b :: t)

/-- `compressIPv6` (utils.ts): select the zero run, overwrite its fragments
with `":"`, drop falsy fragments, join with `:` and collapse the colon run. -/
def compressIPv6 (parts : List Str) : Str :=
  let sel := selectRun parts
  let replaced := (parts.enum.map fun ip =>
    match sel with
    | some r => if r.1 ≤ ip.1 ∧ ip.1 < r.1 + r.2 then [':'] else ip.2
    | none => ip.2)
  collapseColons (joinSep ':' (replaced.filter (fun p => !p.isEmpty)))

/-- The group list of the IPv6 arm of `bigIntToIp`:
`(number >> BigInt(112 - i * 16)) & 0xffffn` for `i = 0 … 7`. -/
def v6Groups (number : Int) : List Nat :=
  (List.range 8).map (fun i => jsMask (jsShr number (112 - 16 * i)) 16)

/-- `bigIntToIp` (utils.ts).  For version 4 the dotted quad; for version 6
first the IPv4-mapped shortcut (`number >> 32n === 0xffffn`, applied before
the `compress` flag is consulted), then hex groups, compressed or padded. -/
def bigIntToIp (number : Int) (version : Nat) (compress : Bool) : Str :=
  if version = 4 then
    bigIntToIpv4 number
  else if jsShr number 32 = (0xffff : Nat) then
    (':' :: ':' :: 'f' :: 'f' :: 'f' :: 'f' :: ':' :: []) ++ bigIntToIpv4 (jsMask number 32)
  else
    let to16 := (v6Groups number).map natToHex
    if compress then compressIPv6 to16
    else joinSep ':' (to16.map padTo4)

/-! ### The validation layer (`src/constants.ts`)

`IPV4_ADDRESS_REGEX` and `IPV6_VALIDATION_REGEX` are anchored regexes over the
whole literal.  Since every sub-pattern except the separators `.` / `:` matches
only separator-free text, an anchored match is equivalently expressed as a
shape condition on the separator-split fragment list; each regex alternative
below is translated in those terms and carries its source name. -/

/-- `IPV4_PART = (25[0-5]|2[0-4][0-9]|1[0-9]{2}|[1-9]?[0-9])`: one decimal
octet, `0`–`255`, no leading zero. -/
def isIpv4Part : Str → Bool
  | [a] => isDigit a
  | [a, b] => decide (('1' : Char) ≤ a) && decide (a ≤ ('9' : Char)) && isDigit b
  | [a, b, c] =>
    (decide (a = '2') && decide (b = '5') && decide (('0' : Char) ≤ c) && decide (c ≤ ('5' : Char)))
      || (decide (a = '2') && decide (('0' : Char) ≤ b) && decide (b ≤ ('4' : Char)) && isDigit c)
      || (decide (a = '1') && isDigit b && isDigit c)
  | _ => false

/-- `IPV4_ADDRESS_REGEX = ^PART\.PART\.PART\.PART$`. -/
def ipv4IsValidStr (s : Str) : Bool :=
  let ps := splitOn '.' s
  decide (ps.length = 4) && ps.all isIpv4Part

/-- `IPV6_SEGMENT = [0-9A-Fa-f]{1,4}`. -/
def isSeg (p : Str) : Bool :=
  !p.isEmpty && decide (p.length ≤ 4) && p.all isHexDigit

/-- `IPV6_STANDARD = (SEG:){7}SEG`: 8 colon-separated segments. -/
def v6Std (g : List Str) : Bool := decide (g.length = 8) && g.all isSeg

/-- `IPV6_COMPRESSED_1 = (SEG:){1,7}:`: 1–7 segments then the two trailing
empty fragments produced by the final `::`. -/
def v6C1 (g : List Str) : Bool :=
  decide (3 ≤ g.length) && decide (g.length ≤ 9)
    && decide (g.drop (g.length - 2) = ([] : Str) :: [([] : Str)])
    && (g.take (g.length - 2)).all isSeg

/-- `IPV6_COMPRESSED_2 = :(:SEG){1,7}`: leading `::` then 1–7 segments. -/
def v6C2 (g : List Str) : Bool :=
  decide (3 ≤ g.length) && decide (g.length ≤ 9)
    && decide (g.take 2 = ([] : Str) :: [([] : Str)])
    && (g.drop 2).all isSeg

/-- `IPV6_COMPRESSED_3 … _8 = (SEG:){1,aMax}(:SEG){1,bMax}`: segments, one
inner `::` (a single empty fragment), segments. -/
def v6Mid (aMax bMax : Nat) (g : List Str) : Bool :=
  match idxOfEmpty g with
  | some i =>
    let A := g.take i
    let B := g.drop (i + 1)
    decide (1 ≤ A.length) && decide (A.length ≤ aMax)
      && decide (1 ≤ B.length) && decide (B.length ≤ bMax)
      && A.all isSeg && B.all isSeg
  | none => false

/-- `IPV6_COMPRESSED_9 = ::(SEG:){0,5}SEG`. -/
def v6C9 (g : List Str) : Bool :=
  decide (3 ≤ g.length) && decide (g.length ≤ 8)
    && decide (g.take 2 = ([] : Str) :: [([] : Str)])
    && (g.drop 2).all isSeg

/-- `IPV6_COMPRESSED_10 = ::`. -/
def v6C10 (g : List Str) : Bool :=
  decide (g = ([] : Str) :: ([] : Str) :: [([] : Str)])

/-- `IPV4_ADDRESS_PATTERN` as the final fragment of the mapped form. -/
def isQuad (p : Str) : Bool :=
  let qs := splitOn '.' p
  decide (qs.length = 4) && qs.all isIpv4Part

/-- `IPV6_IPV4_MAPPED = ((SEG:){6} | ::(SEG:){0,5} | (SEG:){0,5}::(SEG:){0,5})
IPV4_ADDRESS_PATTERN`.  The third alternative with zero leading segments
coincides with the second; it is kept here for `1 ≤ a` leading segments. -/
def v6Mapped (g : List Str) : Bool :=
  match g.getLast? with
  | none => false
  | some lastFrag =>
    isQuad lastFrag &&
      (let P := g.dropLast
       (decide (P.length = 6) && P.all isSeg)
         || (decide (2 ≤ P.length) && decide (P.length ≤ 7)
              && decide (P.take 2 = ([] : Str) :: [([] : Str)]) && (P.drop 2).all isSeg)
         || (match idxOfEmpty P with
             | some i =>
               decide (1 ≤ i) && decide (i ≤ 5) && decide (P.length ≤ i + 6)
                 && (P.take i).all isSeg && (P.drop (i + 1)).all isSeg
             | none => false))

/-- `IPV6_VALIDATION_REGEX`: the anchored union of all the alternatives. -/
def ipv6ValidationRegex (g : List Str) : Bool :=
  v6Std g || v6C1 g || v6C2 g || v6Mid 6 1 g || v6Mid 5 2 g || v6Mid 4 3 g
    || v6Mid 3 4 g || v6Mid 2 5 g || v6Mid 1 6 g || v6C9 g || v6C10 g || v6Mapped g

/-! ### Address classes (`src/ipv4.ts`, `src/ipv6.ts`) -/

/-- `IPv4.isValid` (ipv4.ts): test against `IPV4_ADDRESS_REGEX`. -/
def ipv4IsValid (s : Str) : Bool := ipv4IsValidStr s

/-- `IPv6.isValid` (ipv6.ts): reject any literal containing `/`, then test
against `IPV6_VALIDATION_REGEX`. -/
def ipv6IsValid (s : Str) : Bool :=
  if '/' ∈ s then false else ipv6ValidationRegex (splitOn ':' s)

/-- `new IPv4(s)` (ipv4.ts): validate, then store `ipToBigInt(s, 4)`.  The
result is the stored canonical integer. -/
def ipv4New (s : Str) : Option Nat :=
  if ipv4IsValid s then ipv4ToBigInt s else none

/-- `new IPv6(s)` (ipv6.ts): validate, then store `ipToBigInt(s, 6)`. -/
def ipv6New (s : Str) : Option Nat :=
  if ipv6IsValid s then ipv6ToBigInt s else none

/-- `IPv4.fromBigInt(v)` (ipv4.ts): render with `bigIntToIp(v, 4)` and parse
the text through the ordinary constructor. -/
def ipv4FromBigInt (v : Int) : Option Nat := ipv4New (bigIntToIp v 4 true)

/-- `IPv6.fromBigInt(v)` (ipv6.ts). -/
def ipv6FromBigInt (v : Int) : Option Nat := ipv6New (bigIntToIp v 6 true)

/-- The `address` getter of `IPv6` (compressed rendering of the stored
integer). -/
def ipv6Address (n : Nat) : Str := bigIntToIp n 6 true

/-- The `expandedAddress` getter of `IPv6` (`compress = false`). -/
def ipv6ExpandedAddress (n : Nat) : Str := bigIntToIp n 6 false

/-- `IPv6.toArpa` (ipv6.ts): strip the colons from `expandedAddress`, reverse
the characters, join them with `.` and append `.ip6.arpa`. -/
def ipv6ToArpa (n : Nat) : Str :=
  let hex := (ipv6ExpandedAddress n).filter (fun c => c ≠ ':')
  joinSep '.' (hex.reverse.map (fun c => [c])) ++ ".ip6.arpa".toList

/-! ### The CIDR class (`src/cidr.ts`) -/

/-- IP version tag. -/
inductive IPVer | v4 | v6
  deriving DecidableEq

/-- `BITS` (constants.ts). -/
def bitsOf : IPVer → Nat
  | .v4 => 32
  | .v6 => 128

/-- `MAX_IP` (constants.ts). -/
def maxIP (v : IPVer) : Nat := 2 ^ bitsOf v - 1

/-- An address instance: its version together with its stored canonical
integer. -/
structure IPm where
  ver : IPVer
  addr : Nat
  deriving DecidableEq

/-- A `CIDR` instance: the stored address instance and the numeric prefix
length. -/
structure CIDRm where
  ver : IPVer
  addr : Nat
  plen : Nat
  deriving DecidableEq

/-- JavaScript whitespace skipped by `parseInt`. -/
def jsWhitespace (c : Char) : Bool :=
  decide (c = ' ') || decide (c = '\t') || decide (c = '\n') || decide (c = '\r')

/-- `parseInt(s, 10)`: skip whitespace, optional sign, then the longest
leading run of decimal digits; `none` models `NaN` (no digits). -/
def jsParseInt (s : Str) : Option Int :=
  let s1 := s.dropWhile jsWhitespace
  let core : Str → Option Nat := fun r =>
    let d := r.takeWhile isDigit
    if d.isEmpty then none else some (decValue d)
  match s1 with
  | '-' :: rest => (core rest).map (fun n => -(n : Int))
  | '+' :: rest => (core rest).map (fun n => (n : Int))
  | rest => (core rest).map (fun n => (n : Int))

/-- The `CIDR` constructor (cidr.ts): split on `/`; a falsy (missing or
empty) second fragment throws; `parseInt` of the second fragment must not be
`NaN`; the address part is parsed as IPv4 when it contains `.` and as IPv6
otherwise; the prefix must satisfy `0 <= prefix <= BITS[version]`. -/
def cidrNew (s : Str) : Option CIDRm :=
  let parts := splitOn '/' s
  match parts.get? 1 with
  | none => none
  | some pp =>
    if pp = [] then none
    else
      match jsParseInt pp with
      | none => none
      | some pfx =>
        let ap := parts.headD []
        let av : Option (IPVer × Nat) :=
          if '.' ∈ ap then (ipv4New ap).map (fun a => (IPVer.v4, a))
          else (ipv6New ap).map (fun a => (IPVer.v6, a))
        match av with
        | none => none
        | some (ver, a) =>
          if pfx < 0 ∨ (bitsOf ver : Int) < pfx then none
          else some ⟨ver, a, pfx.toNat⟩

/-- The `netmask` getter: `(MAX_IP << (BITS - prefix)) & MAX_IP`. -/
def cidrNetmask (c : CIDRm) : Nat :=
  (maxIP c.ver <<< (bitsOf c.ver - c.plen)) &&& maxIP c.ver

/-- The `network` getter: `address & netmask`. -/
def cidrNetwork (c : CIDRm) : Nat := c.addr &&& cidrNetmask c

/-- The `broadcast` getter: `network | (MAX_IP >> prefix)`. -/
def cidrBroadcast (c : CIDRm) : Nat :=
  cidrNetwork c ||| (maxIP c.ver >>> c.plen)

/-- `next()` on an address value: `(addr + 1n) & MAX_IP` (the stored integer
of the instance built by `fromBigInt`). -/
def ipNext (v : IPVer) (n : Nat) : Nat := jsMask ((n : Int) + 1) (bitsOf v)

/-- `previous()` on an address value: `(addr - 1n) & MAX_IP`. -/
def ipPrevious (v : IPVer) (n : Nat) : Nat := jsMask ((n : Int) - 1) (bitsOf v)

/-- The `first` getter: IPv4 returns `network` for `prefix >= 31`, else
`network.next()`; IPv6 always returns `network`. -/
def cidrFirst (c : CIDRm) : Nat :=
  match c.ver with
  | .v4 => if 31 ≤ c.plen then cidrNetwork c else ipNext .v4 (cidrNetwork c)
  | .v6 => cidrNetwork c

/-- The `last` getter: IPv4 returns `broadcast` for `prefix >= 31`, else
`broadcast.previous()`; IPv6 always returns `broadcast`. -/
def cidrLast (c : CIDRm) : Nat :=
  match c.ver with
  | .v4 => if 31 ≤ c.plen then cidrBroadcast c else ipPrevious .v4 (cidrBroadcast c)
  | .v6 => cidrBroadcast c

/-- A `contains` argument: an address instance or a literal string. -/
inductive IPArg
  | inst (ip : IPm)
  | lit (s : Str)

/-- `CIDR.contains` (cidr.ts): a string argument is parsed with the
constructor of the block's own version (which may throw, modelled as `none`);
an instance of a different version yields `false`; otherwise the integer range
check `network <= target <= broadcast`. -/
def cidrContains (c : CIDRm) (arg : IPArg) : Option Bool :=
  let ipAddress : Option IPm :=
    match arg with
    | .inst ip => some ip
    | .lit s =>
      match c.ver with
      | .v4 => (ipv4New s).map (fun a => ⟨IPVer.v4, a⟩)
      | .v6 => (ipv6New s).map (fun a => ⟨IPVer.v6, a⟩)
  match ipAddress with
  | none => none
  | some ip =>
    if ip.ver ≠ c.ver then some false
    else some (decide (cidrNetwork c ≤ ip.addr) && decide (ip.addr ≤ cidrBroadcast c))

/-! ### Arithmetic helpers: bitwise operations on `Nat` and the BigInt
operations on `Int` -/

theorem or_eq_add_of_and_eq_zero : ∀ {x y : Nat}, x &&& y = 0 → x ||| y = x + y := by
  intro x
  induction x using Nat.strong_induction_on with
  | _ x ih =>
    intro y h
    rcases Nat.eq_zero_or_pos x with hx | hx
    · simp [hx]
    · have hand2 : (x &&& y) / 2 = 0 := by rw [h]
      rw [Nat.and_div_two] at hand2
      have hrec := ih (x / 2) (Nat.div_lt_self hx (by omega)) hand2
      have hmod : ¬(x % 2 = 1 ∧ y % 2 = 1) := by
        intro hc
        have := (Nat.and_mod_two_eq_one (a := x) (b := y)).mpr hc
        omega
      have hx2 := Nat.div_add_mod x 2
      have hy2 := Nat.div_add_mod y 2
      have hor2 := Nat.div_add_mod (x ||| y) 2
      rw [Nat.or_div_two, hrec] at hor2
      have hormod : (x ||| y) % 2 = x % 2 + y % 2 := by
        rcases Nat.mod_two_eq_zero_or_one x with h1 | h1 <;>
          rcases Nat.mod_two_eq_zero_or_one y with h2 | h2
        · have : ¬((x ||| y) % 2 = 1) := by
            rw [Nat.or_mod_two_eq_one]
            omega
          omega
        · rw [h1, h2]
          rw [Nat.or_mod_two_eq_one.mpr (by omega)]
        · rw [h1, h2]
          rw [Nat.or_mod_two_eq_one.mpr (by omega)]
        · exact absurd ⟨h1, h2⟩ hmod
      omega

/-- `(a <<< k) ||| v = a * 2^k + v` when `v < 2^k` (bit concatenation). -/
theorem shl_or_eq (a v k : Nat) (hv : v < 2 ^ k) : (a <<< k) ||| v = a * 2 ^ k + v := by
  rw [Nat.shiftLeft_eq]
  have hand : (a * 2 ^ k) &&& v = 0 := by
    apply Nat.eq_of_testBit_eq
    intro i
    rw [Nat.testBit_and, Nat.zero_testBit]
    by_cases hi : i < k
    · have h0 : (a * 2 ^ k).testBit i = false := by
        rw [Nat.testBit_to_div_mod, decide_eq_false_iff_not]
        have h1 : 2 ^ k = 2 ^ i * (2 ^ (k - i - 1) * 2) := by
          rw [← Nat.pow_succ, ← Nat.pow_add]
          congr 1
          omega
        have h2 : a * 2 ^ k / 2 ^ i = a * 2 ^ (k - i - 1) * 2 := by
          rw [h1, show a * (2 ^ i * (2 ^ (k - i - 1) * 2)) =
            2 ^ i * (a * 2 ^ (k - i - 1) * 2) by ring,
            Nat.mul_div_cancel_left _ (Nat.pos_pow_of_pos i (by omega))]
        rw [h2, Nat.mul_mod_left]
        omega
      simp [h0]
    · have : v.testBit i = false := Nat.testBit_lt_two_pow (by
        calc v < 2 ^ k := hv
          _ ≤ 2 ^ i := Nat.pow_le_pow_right (by omega) (by omega))
      simp [this]
  rw [or_eq_add_of_and_eq_zero hand]

theorem jsShr_natCast (n : Nat) (k : Nat) : jsShr (n : Int) k = ((n / 2 ^ k : Nat) : Int) := by
  simp [jsShr, Int.ofNat_ediv]

theorem jsMask_natCast (n : Nat) (k : Nat) : jsMask (n : Int) k = n % 2 ^ k := by
  simp only [jsMask]
  rw [show ((2 ^ k : Nat) : Int) = ((2 ^ k : Nat) : Int) from rfl, ← Int.ofNat_emod,
    Int.toNat_ofNat]

theorem jsMask_jsShr_natCast (n : Nat) (s m : Nat) :
    jsMask (jsShr (n : Int) s) m = n / 2 ^ s % 2 ^ m := by
  rw [jsShr_natCast, jsMask_natCast]

/-! ### The IPv4 round trip -/

theorem dot_not_mem_natToDec (n : Nat) : '.' ∉ natToDec n := fun h =>
  (digit_ne_special (natToDec_all_digit n _ h)).2.1 rfl

theorem v4render_split (n : Int) :
    splitOn '.' (bigIntToIpv4 n) =
      [natToDec (jsMask (jsShr n 24) 8), natToDec (jsMask (jsShr n 16) 8),
       natToDec (jsMask (jsShr n 8) 8), natToDec (jsMask n 8)] := by
  apply splitOn_joinSep (by simp)
  intro p hp
  simp only [List.mem_cons, List.not_mem_nil, or_false] at hp
  rcases hp with h | h | h | h <;> exact h ▸ dot_not_mem_natToDec _

set_option maxRecDepth 100000 in
theorem isIpv4Part_natToDec_fin : ∀ v : Fin 256, isIpv4Part (natToDec v.val) = true := by
  decide

theorem isIpv4Part_natToDec {v : Nat} (hv : v < 256) : isIpv4Part (natToDec v) = true :=
  isIpv4Part_natToDec_fin ⟨v, hv⟩

/-- The octet fragment passes the `/^\d+$/` and `<= 255` checks of
`ipv4ToBigInt`. -/
theorem octet_check {v : Nat} (hv : v < 256) :
    (!(natToDec v).isEmpty && (natToDec v).all isDigit
      && decide (decValue (natToDec v) ≤ 255)) = true := by
  have h1 : (natToDec v).isEmpty = false := by
    cases h : natToDec v with
    | nil => exact absurd h (natToDec_ne_nil v)
    | cons a t => rfl
  have h2 : (natToDec v).all isDigit = true := List.all_eq_true.mpr (natToDec_all_digit v)
  have h3 : decValue (natToDec v) ≤ 255 := by rw [decValue_natToDec]; omega
  simp [h1, h2, h3]

theorem jsMask_lt (x : Int) (k : Nat) : jsMask x k < 2 ^ k := by
  have hk : ((2 ^ k : Nat) : Int) ≠ 0 := by positivity
  have h1 := Int.emod_lt_of_pos x (b := ((2 ^ k : Nat) : Int)) (by positivity)
  have h2 := Int.emod_nonneg x hk
  simp only [jsMask]
  omega

/-- The BigInt identity behind silent wrap-around: shifting then masking reads
a bit field, and only the low `w` bits of `v` can reach the field when
`s + m ≤ w`. -/
theorem jsMask_jsShr_eq_of_le (v : Int) (s m w : Nat) (h : s + m ≤ w) :
    jsMask (jsShr v s) m = jsMask v w / 2 ^ s % 2 ^ m := by
  set M : Nat := jsMask v w with hM
  have hMr : ((M : Nat) : Int) = v % ((2 ^ w : Nat) : Int) := by
    rw [hM]
    simp only [jsMask]
    exact Int.toNat_of_nonneg (Int.emod_nonneg v (by positivity))
  have hdecomp : v = ((2 ^ w : Nat) : Int) * (v / ((2 ^ w : Nat) : Int)) + (M : Int) := by
    rw [hMr]
    exact (Int.ediv_add_emod v _).symm
  set q : Int := v / ((2 ^ w : Nat) : Int) with hq
  have hpow : ((2 ^ w : Nat) : Int) = ((2 ^ (w - s - m) : Nat) : Int) *
      ((2 ^ m : Nat) : Int) * ((2 ^ s : Nat) : Int) := by
    push_cast
    rw [← pow_add, ← pow_add]
    congr 1
    omega
  have hshr : jsShr v s = (M : Int) / ((2 ^ s : Nat) : Int) +
      q * (((2 ^ (w - s - m) : Nat) : Int) * ((2 ^ m : Nat) : Int)) := by
    simp only [jsShr]
    conv_lhs => rw [hdecomp]
    rw [hpow]
    rw [show ((2 ^ (w - s - m) : Nat) : Int) * ((2 ^ m : Nat) : Int) *
        ((2 ^ s : Nat) : Int) * q + (M : Int) =
      (M : Int) + (q * (((2 ^ (w - s - m) : Nat) : Int) * ((2 ^ m : Nat) : Int))) *
        ((2 ^ s : Nat) : Int) by ring]
    rw [Int.add_mul_ediv_right _ _ (by positivity : ((2 ^ s : Nat) : Int) ≠ 0)]
  simp only [jsMask, hshr]
  rw [show (M : Int) / ((2 ^ s : Nat) : Int) +
      q * (((2 ^ (w - s - m) : Nat) : Int) * ((2 ^ m : Nat) : Int)) =
    (M : Int) / ((2 ^ s : Nat) : Int) +
      (q * ((2 ^ (w - s - m) : Nat) : Int)) * ((2 ^ m : Nat) : Int) by ring]
  rw [Int.add_mul_emod_self]
  rw [← Int.ofNat_ediv, ← Int.ofNat_emod, Int.toNat_ofNat]

/-- `bigIntToIpv4` only reads the low 32 bits of its argument. -/
theorem bigIntToIpv4_wrap (v : Int) :
    bigIntToIpv4 v = bigIntToIpv4 ((jsMask v 32 : Nat) : Int) := by
  have h0 : jsMask v 8 = jsMask v 32 % 2 ^ 8 := by
    have h := jsMask_jsShr_eq_of_le v 0 8 32 (by omega)
    have hz : jsShr v 0 = v := by simp [jsShr]
    rw [hz] at h
    simpa using h
  simp only [bigIntToIpv4]
  rw [jsMask_jsShr_eq_of_le v 24 8 32 (by omega),
    jsMask_jsShr_eq_of_le v 16 8 32 (by omega),
    jsMask_jsShr_eq_of_le v 8 8 32 (by omega), h0,
    jsMask_jsShr_natCast, jsMask_jsShr_natCast, jsMask_jsShr_natCast, jsMask_natCast]

theorem ipv4_roundtrip {n : Nat} (hn : n < 2 ^ 32) :
    ipv4ToBigInt (bigIntToIpv4 (n : Int)) = some n := by
  have hsplit := v4render_split (n : Int)
  rw [jsMask_jsShr_natCast, jsMask_jsShr_natCast, jsMask_jsShr_natCast,
    jsMask_natCast] at hsplit
  set v1 := n / 2 ^ 24 % 2 ^ 8 with hv1
  set v2 := n / 2 ^ 16 % 2 ^ 8 with hv2
  set v3 := n / 2 ^ 8 % 2 ^ 8 with hv3
  set v4 := n % 2 ^ 8 with hv4
  have b1 : v1 < 256 := Nat.mod_lt _ (by omega)
  have b2 : v2 < 256 := Nat.mod_lt _ (by omega)
  have b3 : v3 < 256 := Nat.mod_lt _ (by omega)
  have b4 : v4 < 256 := Nat.mod_lt _ (by omega)
  simp only [ipv4ToBigInt, hsplit]
  rw [if_pos]
  · congr 1
    simp only [List.foldl_cons, List.foldl_nil, decValue_natToDec]
    rw [Nat.zero_shiftLeft, Nat.zero_or,
      shl_or_eq _ _ _ (by omega : v2 < 2 ^ 8),
      shl_or_eq _ _ _ (by omega : v3 < 2 ^ 8),
      shl_or_eq _ _ _ (by omega : v4 < 2 ^ 8)]
    rw [hv1, hv2, hv3, hv4]
    norm_num
    omega
  · refine ⟨rfl, ?_⟩
    simp only [List.all_cons, List.all_nil, octet_check b1, octet_check b2,
      octet_check b3, octet_check b4, Bool.and_true]

/-- Every rendering of `bigIntToIpv4` passes `IPV4_ADDRESS_REGEX` (all four
octets are masked into `0 … 255` and rendered without leading zeros). -/
theorem ipv4IsValid_render (v : Int) : ipv4IsValid (bigIntToIpv4 v) = true := by
  have h256 : (2 : Nat) ^ 8 = 256 := by norm_num
  simp only [ipv4IsValid, ipv4IsValidStr]
  rw [v4render_split v]
  simp only [List.length_cons, List.length_nil, List.all_cons, List.all_nil,
    isIpv4Part_natToDec (h256 ▸ jsMask_lt (jsShr v 24) 8),
    isIpv4Part_natToDec (h256 ▸ jsMask_lt (jsShr v 16) 8),
    isIpv4Part_natToDec (h256 ▸ jsMask_lt (jsShr v 8) 8),
    isIpv4Part_natToDec (h256 ▸ jsMask_lt v 8), Bool.and_true]
  decide

/-- `IPv4.fromBigInt` never fails: for any integer it silently stores the low
32 bits (two's complement wrap). -/
theorem ipv4FromBigInt_wrap (v : Int) : ipv4FromBigInt v = some (jsMask v 32) := by
  have hb : bigIntToIp v 4 true = bigIntToIpv4 v := rfl
  simp only [ipv4FromBigInt, ipv4New, hb, ipv4IsValid_render, if_true]
  rw [bigIntToIpv4_wrap]
  exact ipv4_roundtrip (jsMask_lt v 32)

/-! ### IPv6 groups and their base-65536 value -/

/-- Big-endian base-65536 value of a group list (the reference fold for
stating the round trips). -/
def groupsValue (gs : List Nat) : Nat := gs.foldl (fun a g => a * 65536 + g) 0

theorem groupsValue_foldl_acc :
    ∀ (gs : List Nat) (a : Nat),
      gs.foldl (fun x g => x * 65536 + g) a = a * 65536 ^ gs.length + groupsValue gs := by
  intro gs
  induction gs with
  | nil => intro a; simp [groupsValue]
  | cons g t ih =>
    intro a
    simp only [groupsValue, List.foldl_cons, List.length_cons]
    rw [ih (a * 65536 + g), ih (0 * 65536 + g)]
    simp only [groupsValue]
    ring

theorem sumExp_append (xs ys : List Nat) (e : Nat) :
    sumExp (xs ++ ys) e = sumExp xs e + sumExp ys (e + 16 * xs.length) := by
  induction xs generalizing e with
  | nil => simp [sumExp]
  | cons v t ih =>
    simp only [List.cons_append, sumExp, List.length_cons]
    rw [show (t ++ ys : List Nat) = t.append ys from rfl] at ih
    rw [ih (e + 16)]
    have harg : e + 16 + 16 * t.length = e + 16 * (t.length + 1) := by omega
    rw [harg]
    ring

theorem sumExp_reverse (gs : List Nat) : sumExp gs.reverse 0 = groupsValue gs := by
  induction gs with
  | nil => simp [sumExp, groupsValue]
  | cons g t ih =>
    rw [List.reverse_cons, sumExp_append, ih]
    simp only [sumExp, List.length_reverse, groupsValue, List.foldl_cons]
    have hp : (2 : Nat) ^ (0 + 16 * t.length) = 65536 ^ t.length := by
      rw [Nat.zero_add, Nat.pow_mul]
    rw [hp, groupsValue_foldl_acc t (0 + g)]
    simp only [groupsValue]
    ring

theorem v6Groups_natCast (n : Nat) :
    v6Groups (n : Int) = (List.range 8).map (fun i => n / 2 ^ (112 - 16 * i) % 2 ^ 16) := by
  simp only [v6Groups]
  refine List.map_congr_left (fun i _ => ?_)
  exact jsMask_jsShr_natCast n (112 - 16 * i) 16

/-- `v6Groups` only reads the low 128 bits of its argument. -/
theorem v6Groups_wrap (v : Int) :
    v6Groups v = v6Groups ((jsMask v 128 : Nat) : Int) := by
  simp only [v6Groups]
  refine List.map_congr_left (fun i hi => ?_)
  have hs : 112 - 16 * i + 16 ≤ 128 := by
    simp only [List.mem_range] at hi
    omega
  rw [jsMask_jsShr_eq_of_le v _ 16 128 hs, jsMask_jsShr_natCast]

theorem groupsValue_v6Groups {n : Nat} (hn : n < 2 ^ 128) :
    groupsValue ((List.range 8).map (fun i => n / 2 ^ (112 - 16 * i) % 2 ^ 16)) = n := by
  have hr : List.range 8 = [0, 1, 2, 3, 4, 5, 6, 7] := rfl
  rw [hr]
  simp only [List.map_cons, List.map_nil, groupsValue, List.foldl_cons, List.foldl_nil]
  norm_num
  omega

/-! ### Hexadecimal group fragments -/

theorem colon_not_mem_natToHex (n : Nat) : ':' ∉ natToHex n := fun h =>
  (hex_ne_special (natToHex_all_hex n _ h)).1 rfl

theorem percent_not_mem_natToHex (n : Nat) : '%' ∉ natToHex n := fun h =>
  (hex_ne_special (natToHex_all_hex n _ h)).2.2.1 rfl

theorem dot_not_mem_natToHex (n : Nat) : '.' ∉ natToHex n := fun h =>
  (hex_ne_special (natToHex_all_hex n _ h)).2.1 rfl

theorem natToHex_length_le4 {g : Nat} (hg : g < 65536) : (natToHex g).length ≤ 4 :=
  natToHex_length_le 4 g (by omega) (by norm_num; omega)

theorem groupVal_natToHex (g : Nat) : groupVal (natToHex g) = g := by
  rw [groupVal, if_neg (natToHex_ne_nil g), hexValue_natToHex]

theorem natToHex_eq_zero {g : Nat} (h : natToHex g = ['0']) : g = 0 := by
  have := hexValue_natToHex g
  rw [h] at this
  simpa [hexValue, hexDigitVal, isDigit] using this.symm

/-- The fragment check of the group arm of `ipv6ToBigInt`. -/
theorem hexGroup_check {p : Str} (hhex : ∀ c ∈ p, isHexDigit c = true)
    (hlen : p.length ≤ 4) : (p.all isHexDigit && decide (p.length ≤ 4)) = true := by
  simp [List.all_eq_true.mpr hhex, hlen]

theorem v4MappedSplit_none_of_no_dot {ip : Str} (h : '.' ∉ ip) :
    v4MappedSplit ip = none := by
  simp only [v4MappedSplit]
  split
  · have hsub : '.' ∉ ip.drop 7 := fun hm => h (List.mem_of_mem_drop hm)
    rw [splitOn_no_sep hsub]
    simp
  · rfl

/-- Characters of a `joinSep` are the separator or fragment characters. -/
theorem mem_joinSep {sep : Char} :
    ∀ {ps : List Str} {c : Char}, c ∈ joinSep sep ps →
      c = sep ∨ ∃ p ∈ ps, c ∈ p
  | [], _, h => by simp [joinSep] at h
  | [p], c, h => by
    right
    exact ⟨p, by simp, by simpa [joinSep] using h⟩
  | p :: q :: qs, c, h => by
    rw [joinSep_cons sep p (by simp)] at h
    rcases List.mem_append.mp h with h | h
    · exact Or.inr ⟨p, by simp, h⟩
    · rcases List.mem_cons.mp h with h | h
      · exact Or.inl h
      · rcases @mem_joinSep sep (q :: qs) c h with h | ⟨r, hr, hc⟩
        · exact Or.inl h
        · exact Or.inr ⟨r, List.mem_cons_of_mem p hr, hc⟩

/-! ### Round trip of the expanded (`compress = false`) IPv6 rendering -/

theorem hexValue_replicate_zero :
    ∀ (k : Nat) (s : Str), hexValue (List.replicate k '0' ++ s) = hexValue s := by
  intro k
  induction k with
  | zero => simp
  | succ k ih =>
    intro s
    rw [List.replicate_succ, List.cons_append]
    simp only [hexValue, List.foldl_cons]
    have h0 : (0 : Nat) * 16 + hexDigitVal '0' = 0 := by decide
    rw [h0]
    exact ih s

theorem padTo4_hexValue (s : Str) : hexValue (padTo4 s) = hexValue s :=
  hexValue_replicate_zero _ s

theorem padTo4_all_hex {p : Str} (hp : ∀ c ∈ p, isHexDigit c = true) :
    ∀ c ∈ padTo4 p, isHexDigit c = true := by
  intro c hc
  rcases List.mem_append.mp hc with h | h
  · rw [List.eq_of_mem_replicate h]
    decide
  · exact hp c h

theorem padTo4_length {p : Str} (hp : p.length ≤ 4) : (padTo4 p).length = 4 := by
  simp only [padTo4, List.length_append, List.length_replicate]
  omega

theorem padTo4_ne_nil (p : Str) (hp : p.length ≤ 4) : padTo4 p ≠ [] := by
  intro h
  have := congrArg List.length h
  rw [padTo4_length hp] at this
  simp at this

theorem padded_all_hex (g : Nat) : ∀ c ∈ padTo4 (natToHex g), isHexDigit c = true :=
  padTo4_all_hex (natToHex_all_hex g)

/-- The group arm of `ipv6ToBigInt` applied to the colon join of the padded
group renderings recovers the group values. -/
theorem ipv6Core_join_padded {gs : List Nat} (hlen : gs.length = 8)
    (hg : ∀ g ∈ gs, g < 65536) :
    ipv6Core (joinSep ':' ((gs.map natToHex).map padTo4)) = some (groupsValue gs) := by
  set parts := (gs.map natToHex).map padTo4 with hparts
  have hmem : ∀ p ∈ parts, ∃ g ∈ gs, p = padTo4 (natToHex g) := by
    intro p hp
    rw [hparts] at hp
    rcases List.mem_map.mp hp with ⟨q, hq, hpq⟩
    rcases List.mem_map.mp hq with ⟨g, hgm, hqg⟩
    exact ⟨g, hgm, by rw [← hpq, ← hqg]⟩
  have hhex : ∀ p ∈ parts, ∀ c ∈ p, isHexDigit c = true := by
    intro p hp
    rcases hmem p hp with ⟨g, _, rfl⟩
    exact padded_all_hex g
  have hnc : ∀ p ∈ parts, ':' ∉ p := by
    intro p hp hc
    exact (hex_ne_special (hhex p hp ':' hc)).1 rfl
  have hne : ∀ p ∈ parts, p ≠ [] := by
    intro p hp
    rcases hmem p hp with ⟨g, hgm, rfl⟩
    exact padTo4_ne_nil _ (natToHex_length_le4 (hg g hgm))
  have hplen : parts.length = 8 := by
    rw [hparts]
    simp [hlen]
  have hpnil : parts ≠ [] := by
    intro h
    rw [h] at hplen
    simp at hplen
  have hnodot : '.' ∉ joinSep ':' parts := by
    intro hm
    rcases mem_joinSep hm with h | ⟨p, hp, hc⟩
    · cases h
    · exact (hex_ne_special (hhex p hp '.' hc)).2.1 rfl
  simp only [ipv6Core]
  rw [v4MappedSplit_none_of_no_dot hnodot, splitOn_joinSep hpnil hnc]
  rw [show expandIPv6Shorthand parts = some parts by
    simp [expandIPv6Shorthand, idxOfEmpty_none hne]]
  show (if parts.length = 8 ∧
      (parts.all fun p => List.all p isHexDigit && decide (List.length p ≤ 4)) = true then
    some (sumExp ((parts.map groupVal).reverse) 0) else none) = some (groupsValue gs)
  rw [if_pos]
  · congr 1
    have hvals : parts.map groupVal = gs := by
      rw [hparts, List.map_map, List.map_map]
      conv_rhs => rw [← List.map_id gs]
      refine List.map_congr_left (fun g hgm => ?_)
      show groupVal (padTo4 (natToHex g)) = g
      rw [groupVal, if_neg (hne _ (by
        rw [hparts]
        exact List.mem_map.mpr ⟨natToHex g, List.mem_map.mpr ⟨g, hgm, rfl⟩, rfl⟩)),
        padTo4_hexValue, hexValue_natToHex]
    rw [hvals, sumExp_reverse]
  · refine ⟨hplen, List.all_eq_true.mpr ?_⟩
    intro p hp
    rcases hmem p hp with ⟨g, hgm, rfl⟩
    exact hexGroup_check (padded_all_hex g)
      (by rw [padTo4_length (natToHex_length_le4 (hg g hgm))])

theorem percent_not_mem_join_padded {gs : List Nat} (hlen : gs.length = 8) :
    '%' ∉ joinSep ':' ((gs.map natToHex).map padTo4) := by
  intro hm
  rcases mem_joinSep hm with h | ⟨p, hp, hc⟩
  · cases h
  · rcases List.mem_map.mp hp with ⟨q, hq, rfl⟩
    rcases List.mem_map.mp hq with ⟨g, _, rfl⟩
    exact (hex_ne_special (padded_all_hex g '%' hc)).2.2.1 rfl

/-- The BigInt comparison `number >> 32n === 0xffffn` for a natural operand. -/
theorem mapped_test_natCast (n : Nat) :
    (jsShr (n : Int) 32 = ((0xffff : Nat) : Int)) ↔ n / 2 ^ 32 = 0xffff := by
  rw [jsShr_natCast]
  exact Int.ofNat_inj

theorem ipv6_expanded_roundtrip {n : Nat} (hn : n < 2 ^ 128)
    (hm : n / 2 ^ 32 ≠ 0xffff) :
    ipv6ToBigInt (bigIntToIp (n : Int) 6 false) = some n := by
  have hb : bigIntToIp (n : Int) 6 false =
      joinSep ':' (((v6Groups (n : Int)).map natToHex).map padTo4) := by
    simp only [bigIntToIp]
    rw [if_neg (by omega), if_neg (fun hc => hm ((mapped_test_natCast n).mp hc))]
    simp [List.map_map]
  rw [hb, v6Groups_natCast]
  set gs := (List.range 8).map (fun i => n / 2 ^ (112 - 16 * i) % 2 ^ 16) with hgs
  have hlen : gs.length = 8 := by simp [hgs]
  have hglt : ∀ g ∈ gs, g < 65536 := by
    intro g hgm
    rw [hgs] at hgm
    rcases List.mem_map.mp hgm with ⟨i, _, rfl⟩
    exact Nat.mod_lt _ (by norm_num)
  rw [ipv6ToBigInt, if_neg (percent_not_mem_join_padded hlen),
    ipv6Core_join_padded hlen hglt, groupsValue_v6Groups hn]

/-! ### Round trip of the IPv4-mapped shortcut rendering -/

theorem v4render_chars (v : Int) :
    ∀ c ∈ bigIntToIpv4 v, isDigit c = true ∨ c = '.' := by
  intro c hc
  rcases mem_joinSep hc with h | ⟨p, hp, hcp⟩
  · exact Or.inr h
  · simp only [List.mem_cons, List.not_mem_nil, or_false] at hp
    rcases hp with h | h | h | h <;>
      exact Or.inl (natToDec_all_digit _ c (h ▸ hcp))

theorem octet_length_le3 {v : Nat} (hv : v < 256) : (natToDec v).length ≤ 3 :=
  natToDec_length_le 3 v (by omega) (by omega)

/-- The mapped rendering `::ffff:a.b.c.d` parses back to
`0xffff * 2^32 + low`. -/
theorem ipv6_mapped_roundtrip {n : Nat} (hlo : 0xffff * 2 ^ 32 ≤ n)
    (hhi : n < 0x10000 * 2 ^ 32) (compress : Bool) :
    ipv6ToBigInt (bigIntToIp (n : Int) 6 compress) = some n := by
  have hdiv : n / 2 ^ 32 = 0xffff := by omega
  have hb : bigIntToIp (n : Int) 6 compress =
      (':' :: ':' :: 'f' :: 'f' :: 'f' :: 'f' :: ':' :: []) ++
        bigIntToIpv4 ((jsMask (n : Int) 32 : Nat) : Int) := by
    simp only [bigIntToIp]
    rw [if_neg (by omega), if_pos ((mapped_test_natCast n).mpr hdiv)]
  set m : Nat := n % 2 ^ 32 with hm
  have hmeq : jsMask (n : Int) 32 = m := jsMask_natCast n 32
  have hmlt : m < 2 ^ 32 := Nat.mod_lt _ (by norm_num)
  set quad := bigIntToIpv4 ((m : Nat) : Int) with hquad
  rw [hb, hmeq]
  have hqchars := v4render_chars ((m : Nat) : Int)
  have hnp : '%' ∉ (':' :: ':' :: 'f' :: 'f' :: 'f' :: 'f' :: ':' :: []) ++ quad := by
    intro hmem
    rcases List.mem_append.mp hmem with h | h
    · simp at h
    · rcases hqchars '%' h with h | h
      · exact (digit_ne_special h).2.2.1 rfl
      · cases h
  rw [ipv6ToBigInt, if_neg hnp]
  have hsplit := v4render_split ((m : Nat) : Int)
  rw [jsMask_jsShr_natCast, jsMask_jsShr_natCast, jsMask_jsShr_natCast,
    jsMask_natCast] at hsplit
  have hqs : v4MappedSplit
      ((':' :: ':' :: 'f' :: 'f' :: 'f' :: 'f' :: ':' :: []) ++ quad) = some quad := by
    simp only [v4MappedSplit]
    rw [List.take_left' (by rfl), List.drop_left' (by rfl)]
    rw [if_pos rfl, hsplit, if_pos]
    refine ⟨rfl, List.all_eq_true.mpr ?_⟩
    intro p hp
    simp only [List.mem_cons, List.not_mem_nil, or_false] at hp
    have hoct : ∀ v : Nat, v < 256 →
        (!(natToDec v).isEmpty && decide ((natToDec v).length ≤ 3)
          && (natToDec v).all isDigit) = true := by
      intro v hv
      have h1 : (natToDec v).isEmpty = false := by
        cases h : natToDec v with
        | nil => exact absurd h (natToDec_ne_nil v)
        | cons a t => rfl
      simp [h1, octet_length_le3 hv, List.all_eq_true.mpr (natToDec_all_digit v)]
    rcases hp with h | h | h | h <;>
      · subst h
        exact hoct _ (Nat.mod_lt _ (by omega))
  simp only [ipv6Core, hqs, ipv4_roundtrip hmlt]
  show some ((65535 <<< 32) ||| m) = some n
  congr 1
  rw [shl_or_eq _ _ _ hmlt]
  omega

/-! ### The zero-run selected by `compressIPv6` is a contiguous run of `"0"`
fragments -/

/-- `r` describes a non-empty contiguous run of literal `"0"` fragments
inside `ps` (the `Set` contents of the source's scan loop). -/
def IsZeroRun (ps : List Str) (r : ZRun) : Prop :=
  1 ≤ r.2 ∧ r.1 + r.2 ≤ ps.length ∧
    ∀ j, r.1 ≤ j → j < r.1 + r.2 → ps[j]? = some ['0']

theorem compressScan_spec (full : List Str) :
    ∀ (rest : List Str) (i : Nat) (lg cur : Option ZRun),
      rest = full.drop i →
      (∀ r, lg = some r → IsZeroRun full r) →
      (∀ r, cur = some r → IsZeroRun full r ∧ r.1 + r.2 = i) →
      (∀ r, (compressScan rest i lg cur).1 = some r → IsZeroRun full r) ∧
      (∀ r, (compressScan rest i lg cur).2 = some r → IsZeroRun full r) := by
  intro rest
  induction rest with
  | nil =>
    intro i lg cur _ hlg hcur
    exact ⟨fun r hr => hlg r hr, fun r hr => (hcur r hr).1⟩
  | cons p rest ih =>
    intro i lg cur hdrop hlg hcur
    have hi : full[i]? = some p := by
      have h0 : (full.drop i)[0]? = some p := by rw [← hdrop]; simp
      rwa [List.getElem?_drop, Nat.add_zero] at h0
    have hilt : i < full.length := by
      rcases List.getElem?_eq_some.mp hi with ⟨hlt, _⟩
      exact hlt
    have hdrop1 : rest = full.drop (i + 1) := by
      have : (full.drop i).tail = full.drop (i + 1) := by
        rw [← List.drop_drop]
        simp
      rw [← this, ← hdrop]
      rfl
    simp only [compressScan]
    by_cases hp : p = ['0']
    · rw [if_pos hp]
      apply ih (i + 1) lg _ hdrop1 hlg
      intro r hr
      match cur, hr with
      | none, hr =>
        simp only at hr
        cases hr
        refine ⟨⟨by omega, by omega, ?_⟩, by omega⟩
        intro j h1 h2
        have hj : j = i := by omega
        rw [hj, hi, hp]
      | some c, hr =>
        simp only at hr
        cases hr
        rcases hcur c rfl with ⟨⟨hc1, hc2, hc3⟩, hce⟩
        refine ⟨⟨by omega, by simp only; omega, ?_⟩, by simp only; omega⟩
        intro j h1 h2
        simp only at h1 h2
        by_cases hj : j < c.1 + c.2
        · exact hc3 j h1 hj
        · have hj' : j = i := by omega
          rw [hj', hi, hp]
    · rw [if_neg hp]
      match cur with
      | some c =>
        cases lg with
        | none =>
          apply ih (i + 1) (some c) none hdrop1
          · intro r hr
            cases hr
            exact (hcur c rfl).1
          · intro r hr
            cases hr
        | some l =>
          apply ih (i + 1) _ none hdrop1
          · intro r hr
            simp only at hr
            split at hr
            · cases hr
              exact (hcur c rfl).1
            · cases hr
              exact hlg l rfl
          · intro r hr
            cases hr
      | none =>
        apply ih (i + 1) lg none hdrop1 hlg
        intro r hr
        cases hr

theorem selectRun_spec (ps : List Str) :
    ∀ r, selectRun ps = some r → IsZeroRun ps r := by
  intro r hr
  have hspec := compressScan_spec ps ps 0 none none rfl
    (fun _ h => by cases h) (fun _ h => by cases h)
  rw [selectRun] at hr
  rcases hsc : compressScan ps 0 none none with ⟨lg, cur⟩
  rw [hsc] at hr
  rcases hspec with ⟨hlg, hcur⟩
  rw [hsc] at hlg hcur
  match lg, cur, hr with
  | none, some c, hr =>
    simp only at hr
    cases hr
    exact hcur r rfl
  | some l, some c, hr =>
    simp only at hr
    split at hr
    · cases hr
      exact hcur r rfl
    · cases hr
      exact hlg r rfl
  | none, none, hr => cases hr
  | some l, none, hr =>
    simp only at hr
    cases hr
    exact hlg r rfl

/-! ### The colon-collapsing `replace(/:{2,}/, '::')` -/

theorem dropLeadingColons_eq {t : Str} (ht : t = [] ∨ t.head? ≠ some ':') :
    ∀ k, dropLeadingColons (List.replicate k ':' ++ t) = t := by
  intro k
  induction k with
  | zero =>
    rcases ht with h | h
    · simp [h, dropLeadingColons]
    · cases t with
      | nil => simp [dropLeadingColons]
      | cons c t' =>
        have hc : c ≠ ':' := fun hc => h (by rw [hc]; rfl)
        simp [dropLeadingColons, hc]
  | succ k ih =>
    rw [List.replicate_succ, List.cons_append]
    simp [dropLeadingColons, ih]

theorem collapseColons_cons_of_ne {c : Char} (hc : c ≠ ':') {X : Str} (hX : X ≠ []) :
    collapseColons (c :: X) = c :: collapseColons X := by
  cases X with
  | nil => exact absurd rfl hX
  | cons d X' => simp [collapseColons, hc]

/-- Collapsing a colon-free fragment followed by a run of `m ≥ 2` colons and a
tail not starting with a colon. -/
theorem collapse_chars {p : Str} (hp : ':' ∉ p) {m : Nat} (hm : 2 ≤ m) {t : Str}
    (ht : t = [] ∨ t.head? ≠ some ':') :
    collapseColons (p ++ (List.replicate m ':' ++ t)) = p ++ (':' :: ':' :: t) := by
  induction p with
  | nil =>
    simp only [List.nil_append]
    match m, hm with
    | k + 2, _ =>
      rw [List.replicate_succ, List.replicate_succ, List.cons_append, List.cons_append]
      show collapseColons (':' :: ':' :: (List.replicate k ':' ++ t)) = ':' :: ':' :: t
      rw [collapseColons, if_pos ⟨rfl, rfl⟩, dropLeadingColons_eq ht k]
  | cons c p' ih =>
    have hc : c ≠ ':' := fun h => hp (h ▸ List.mem_cons_self c p')
    have hne : p' ++ (List.replicate m ':' ++ t) ≠ [] := by
      intro h
      rcases List.append_eq_nil.mp h with ⟨_, h2⟩
      rcases List.append_eq_nil.mp h2 with ⟨h3, _⟩
      have := List.length_replicate m ':'
      rw [h3] at this
      simp at this
      omega
    rw [List.cons_append, collapseColons_cons_of_ne hc hne,
      ih (fun hm => hp (List.mem_cons_of_mem c hm))]
    rfl

/-- Collapsing walks through a colon-free fragment and a single separator
colon when what follows does not start with a colon. -/
theorem collapse_part_sep {p : Str} (hp : ':' ∉ p) {X : Str} (hX : X ≠ [])
    (hh : X.head? ≠ some ':') :
    collapseColons (p ++ ':' :: X) = p ++ ':' :: collapseColons X := by
  induction p with
  | nil =>
    cases X with
    | nil => exact absurd rfl hX
    | cons d X' =>
      have hd : d ≠ ':' := fun h => hh (by rw [h]; rfl)
      simp [collapseColons, hd]
  | cons c p' ih =>
    have hc : c ≠ ':' := fun h => hp (h ▸ List.mem_cons_self c p')
    have hne : p' ++ ':' :: X ≠ [] := by simp
    rw [List.cons_append, collapseColons_cons_of_ne hc hne,
      ih (fun hm => hp (List.mem_cons_of_mem c hm))]
    rfl

theorem collapse_no_colon {p : Str} (hp : ':' ∉ p) : collapseColons p = p := by
  induction p with
  | nil => rfl
  | cons c p' ih =>
    have hc : c ≠ ':' := fun h => hp (h ▸ List.mem_cons_self c p')
    by_cases hp' : p' = []
    · subst hp'
      rfl
    · rw [collapseColons_cons_of_ne hc hp',
        ih (fun hm => hp (List.mem_cons_of_mem c hm))]

theorem head?_append_of_ne_nil {q t : Str} (hq : q ≠ []) : (q ++ t).head? = q.head? := by
  cases q with
  | nil => exact absurd rfl hq
  | cons c q' => rfl

/-- The head of a join of non-empty colon-free fragments is not a colon. -/
theorem joinSep_head_ne_colon {ps : List Str} (hps : ∀ p ∈ ps, p ≠ [] ∧ ':' ∉ p)
    (hne : ps ≠ []) : (joinSep ':' ps).head? ≠ some ':' := by
  cases ps with
  | nil => exact absurd rfl hne
  | cons q qs =>
    rcases hps q (by simp) with ⟨hq1, hq2⟩
    have hh : (joinSep ':' (q :: qs)).head? = q.head? := by
      cases qs with
      | nil => rfl
      | cons r rs =>
        rw [joinSep_cons ':' q (by simp)]
        exact head?_append_of_ne_nil hq1
    rw [hh]
    cases q with
    | nil => exact absurd rfl hq1
    | cons c q' =>
      intro h
      have hc : c = ':' := by
        simpa using h
      exact hq2 (hc ▸ List.mem_cons_self c q')

theorem joinSep_ne_nil {ps : List Str} (hps : ∀ p ∈ ps, p ≠ []) (hne : ps ≠ []) :
    joinSep ':' ps ≠ [] := by
  cases ps with
  | nil => exact absurd rfl hne
  | cons q qs =>
    cases qs with
    | nil => exact hps q (by simp)
    | cons r rs =>
      rw [joinSep_cons ':' q (by simp)]
      intro h
      rcases List.append_eq_nil.mp h with ⟨h1, h2⟩
      cases h2

/-- Overwriting the fragments of the selected run with `":"` (the
`for (const index of longest) parts[index] = ':'` loop). -/
theorem enum_replace {ps : List Str} {s L : Nat} (hsl : s + L ≤ ps.length) :
    (ps.enum.map fun ip => if s ≤ ip.1 ∧ ip.1 < s + L then [':'] else ip.2) =
      ps.take s ++ (List.replicate L ([':'] : Str) ++ ps.drop (s + L)) := by
  apply List.ext_getElem?
  intro i
  rw [List.getElem?_map, List.getElem?_enum, Option.map_map]
  have hlt : (ps.take s).length = s := by
    rw [List.length_take]
    omega
  by_cases h1 : i < s
  · rw [List.getElem?_append_left (by omega), List.getElem?_take_of_lt h1]
    have hip : ps[i]? = some ps[i] := List.getElem?_eq_getElem (by omega)
    rw [hip]
    show some (if s ≤ i ∧ i < s + L then [':'] else ps[i]) = some ps[i]
    rw [if_neg (by omega)]
  · rw [List.getElem?_append_right (by omega)]
    by_cases h2 : i < s + L
    · rw [List.getElem?_append_left (by rw [List.length_replicate]; omega)]
      rw [List.getElem?_replicate, if_pos (by omega)]
      have hip : ps[i]? = some ps[i] := List.getElem?_eq_getElem (by omega)
      rw [hip]
      show some (if s ≤ i ∧ i < s + L then [':'] else ps[i]) = some [':']
      rw [if_pos (by omega)]
    · rw [List.getElem?_append_right (by rw [List.length_replicate]; omega),
        List.getElem?_drop]
      rw [hlt, List.length_replicate]
      have hidx : s + L + (i - s - L) = i := by omega
      rw [hidx]
      by_cases h3 : i < ps.length
      · have hip : ps[i]? = some ps[i] := List.getElem?_eq_getElem h3
        rw [hip]
        show some (if s ≤ i ∧ i < s + L then [':'] else ps[i]) = some ps[i]
        rw [if_neg (by omega)]
      · have hip : ps[i]? = none := List.getElem?_eq_none (by omega)
        rw [hip]
        rfl

/-- Collapsing the join of non-empty colon-free fragments is the identity. -/
theorem collapse_join_id :
    ∀ (ps : List Str), (∀ p ∈ ps, p ≠ [] ∧ ':' ∉ p) → ps ≠ [] →
      collapseColons (joinSep ':' ps) = joinSep ':' ps
  | [], _, h => absurd rfl h
  | [p], hps, _ => by
    simpa [joinSep] using collapse_no_colon (hps p (by simp)).2
  | p :: q :: qs, hps, _ => by
    have htail : ∀ r ∈ q :: qs, r ≠ [] ∧ ':' ∉ r :=
      fun r hr => hps r (List.mem_cons_of_mem p hr)
    rw [joinSep_cons ':' p (by simp),
      collapse_part_sep (hps p (by simp)).2
        (joinSep_ne_nil (fun r hr => (htail r hr).1) (by simp))
        (joinSep_head_ne_colon htail (by simp)),
      collapse_join_id (q :: qs) htail (by simp)]

/-- Collapsing the join of non-empty colon-free fragments followed by a run
of `m ≥ 2` colons and a tail not starting with a colon. -/
theorem collapse_join :
    ∀ (A : List Str), (∀ p ∈ A, p ≠ [] ∧ ':' ∉ p) →
      ∀ {m : Nat}, 2 ≤ m → ∀ {t : Str}, t = [] ∨ t.head? ≠ some ':' →
      collapseColons (joinSep ':' A ++ (List.replicate m ':' ++ t)) =
        joinSep ':' A ++ (':' :: ':' :: t)
  | [], _, m, hm, t, ht => by
    simpa using collapse_chars (p := []) (by simp) hm ht
  | [p], hA, m, hm, t, ht => by
    simpa [joinSep] using collapse_chars (hA p (by simp)).2 hm ht
  | p :: q :: qs, hA, m, hm, t, ht => by
    have htail : ∀ r ∈ q :: qs, r ≠ [] ∧ ':' ∉ r :=
      fun r hr => hA r (List.mem_cons_of_mem p hr)
    have hJne : joinSep ':' (q :: qs) ≠ [] :=
      joinSep_ne_nil (fun r hr => (htail r hr).1) (by simp)
    rw [joinSep_cons ':' p (by simp), List.append_assoc, List.cons_append,
      collapse_part_sep (hA p (by simp)).2
        (by
          intro h
          exact hJne (List.append_eq_nil.mp h).1)
        (by
          rw [head?_append_of_ne_nil hJne]
          exact joinSep_head_ne_colon htail (by simp)),
      collapse_join (q :: qs) htail hm ht]
    simp

/-! ### Characterising the split of the compressed rendering -/

theorem joinSep_append (sep : Char) :
    ∀ (A B : List Str), A ≠ [] → B ≠ [] →
      joinSep sep (A ++ B) = joinSep sep A ++ sep :: joinSep sep B
  | [], _, hA, _ => absurd rfl hA
  | [a], B, _, hB => by
    rw [List.singleton_append, joinSep_cons sep a hB]
    rfl
  | a :: a' :: A', B, _, hB => by
    rw [List.cons_append, joinSep_cons sep a (by simp),
      joinSep_cons sep a (by simp), List.append_assoc]
    congr 1
    rw [List.cons_append]
    congr 1
    exact joinSep_append sep (a' :: A') B (by simp) hB

theorem joinSep_replicate_colon :
    ∀ L, 1 ≤ L → joinSep ':' (List.replicate L ([':'] : Str)) =
      List.replicate (2 * L - 1) ':' := by
  intro L
  induction L with
  | zero => omega
  | succ L ih =>
    intro _
    rcases Nat.eq_zero_or_pos L with h | h
    · subst h
      rfl
    · rw [List.replicate_succ, joinSep_cons ':' _ (by
        intro hc
        have := List.length_replicate L ([':'] : Str)
        rw [hc] at this
        simp at this
        omega), ih h]
      have h2 : 2 * (L + 1) - 1 = (2 * L - 1) + 1 + 1 := by omega
      rw [h2, List.replicate_succ, List.replicate_succ]
      rfl

theorem replicate_snoc_colon (k : Nat) (t : Str) :
    List.replicate k ':' ++ ':' :: t = List.replicate (k + 1) ':' ++ t := by
  induction k with
  | zero => rfl
  | succ k ih =>
    rw [List.replicate_succ, List.cons_append, ih]
    rfl

theorem colon_block (k : Nat) (t : Str) :
    ':' :: (List.replicate k ':' ++ ':' :: t) = List.replicate (k + 2) ':' ++ t := by
  rw [replicate_snoc_colon]
  rw [show k + 2 = (k + 1) + 1 by omega, List.replicate_succ]
  rfl

/-- Joining the fragments of a split recovers the original string. -/
theorem joinSep_splitOn (sep : Char) : ∀ s : Str, joinSep sep (splitOn sep s) = s
  | [] => rfl
  | c :: cs => by
    by_cases hc : c = sep
    · subst hc
      rw [splitOn_sep_cons, joinSep_cons _ _ (splitOn_ne_nil c cs), joinSep_splitOn c cs]
      rfl
    · cases hsp : splitOn sep cs with
      | nil => exact absurd hsp (splitOn_ne_nil sep cs)
      | cons g gs =>
        rw [splitOn_cons_of_ne hc cs g gs hsp]
        have ih := joinSep_splitOn sep cs
        rw [hsp] at ih
        cases gs with
        | nil =>
          simpa [joinSep] using congrArg (c :: ·) ih
        | cons g' gs' =>
          rw [joinSep_cons sep (c :: g) (by simp), List.cons_append]
          rw [joinSep_cons sep g (by simp)] at ih
          rw [ih]

/-- The split form of the compressed rendering when a zero run is selected:
the run is replaced by one empty fragment, with an extra empty fragment at
either end the run touches. -/
theorem compress_split_some {ps : List Str} (hps : ∀ p ∈ ps, p ≠ [] ∧ ':' ∉ p)
    (hlen2 : 2 ≤ ps.length) {s L : Nat} (hsel : selectRun ps = some (s, L))
    (hzr : IsZeroRun ps (s, L)) :
    splitOn ':' (compressIPv6 ps) =
      (if s = 0 then [([] : Str)] else ps.take s) ++ [([] : Str)] ++
        (if s + L = ps.length then [([] : Str)] else ps.drop (s + L)) := by
  obtain ⟨hL1, hsl, hrun⟩ := hzr
  have hA : ∀ p ∈ ps.take s, p ≠ [] ∧ ':' ∉ p :=
    fun p hp => hps p (List.take_subset s ps hp)
  have hB : ∀ p ∈ ps.drop (s + L), p ≠ [] ∧ ':' ∉ p :=
    fun p hp => hps p (List.drop_subset (s + L) ps hp)
  have hAlen : (ps.take s).length = s := by
    rw [List.length_take]
    omega
  have hBlen : (ps.drop (s + L)).length = ps.length - s - L := by
    rw [List.length_drop]
    omega
  have hfilter : ∀ p ∈ ps.take s ++ (List.replicate L ([':'] : Str) ++ ps.drop (s + L)),
      (!p.isEmpty) = true := by
    intro p hp
    rcases List.mem_append.mp hp with h | h
    · rcases (hA p h).1 with h1
      cases hq : p with
      | nil => exact absurd hq ((hA p h).1)
      | cons a t => rfl
    · rcases List.mem_append.mp h with h | h
      · rw [List.eq_of_mem_replicate h]
        rfl
      · cases hq : p with
        | nil => exact absurd hq ((hB p h).1)
        | cons a t => rfl
  have hout : compressIPv6 ps = collapseColons (joinSep ':'
      (ps.take s ++ (List.replicate L ([':'] : Str) ++ ps.drop (s + L)))) := by
    simp only [compressIPv6, hsel]
    rw [enum_replace hsl, List.filter_eq_self.mpr hfilter]
  by_cases h0 : s = 0
  · subst h0
    simp only [List.take_zero, List.nil_append] at hout ⊢
    by_cases hE : 0 + L = ps.length
    · -- all fragments are in the run: the output is `::`
      have hdrop : ps.drop (0 + L) = [] := by
        apply List.drop_eq_nil_of_le
        omega
      rw [hdrop, List.append_nil] at hout
      rw [if_pos hE]
      rw [joinSep_replicate_colon L hL1] at hout
      have hm : 2 ≤ 2 * L - 1 := by omega
      have := collapse_chars (p := []) (by simp) hm (t := []) (Or.inl rfl)
      simp only [List.nil_append, List.append_nil] at this
      rw [this] at hout
      rw [hout]
      rfl
    · -- run at the front: the output is `::` ++ join of the tail
      rw [if_neg hE]
      have hBne : ps.drop (0 + L) ≠ [] := by
        intro h
        have := congrArg List.length h
        rw [hBlen] at this
        simp at this
        omega
      rw [joinSep_append ':' _ _ (by
          intro h
          have := congrArg List.length h
          rw [List.length_replicate] at this
          simp at this
          omega) hBne, joinSep_replicate_colon L hL1,
        replicate_snoc_colon] at hout
      have hm : 2 ≤ 2 * L - 1 + 1 := by omega
      have hhd := joinSep_head_ne_colon hB hBne
      have hcoll := collapse_chars (p := []) (by simp) hm (Or.inr hhd)
      simp only [List.nil_append] at hcoll
      rw [hcoll] at hout
      rw [hout, splitOn_sep_cons, splitOn_sep_cons,
        splitOn_joinSep hBne (fun p hp => (hB p hp).2)]
      rfl
  · -- the run starts after at least one fragment
    have hAne : ps.take s ≠ [] := by
      intro h
      have := congrArg List.length h
      rw [hAlen] at this
      simp at this
      omega
    by_cases hE : s + L = ps.length
    · -- run reaches the end: output is join of the head ++ `::`
      rw [if_neg h0, if_pos hE]
      have hdrop : ps.drop (s + L) = [] := by
        apply List.drop_eq_nil_of_le
        omega
      rw [hdrop, List.append_nil] at hout
      rw [joinSep_append ':' _ _ hAne (by
          intro h
          have := congrArg List.length h
          rw [List.length_replicate] at this
          simp at this
          omega), joinSep_replicate_colon L hL1] at hout
      have hrep : (':' :: List.replicate (2 * L - 1) ':' : Str) =
          List.replicate (2 * L) ':' := by
        rw [show 2 * L = 2 * L - 1 + 1 by omega]
        rfl
      rw [hrep] at hout
      have hcoll := collapse_join (ps.take s) hA (by omega : 2 ≤ 2 * L)
        (t := []) (Or.inl rfl)
      rw [List.append_nil] at hcoll
      rw [hcoll] at hout
      rw [hout]
      have hsplit := @splitOn_joinSep_append ':' (ps.take s) hAne
        (fun p hp => (hA p hp).2) (':' :: [])
      rw [show joinSep ':' (ps.take s) ++ (':' :: ':' :: []) =
        joinSep ':' (ps.take s) ++ ':' :: (':' :: []) from rfl, hsplit]
      simp [splitOn]
    · -- run strictly inside: output is join ++ `::` ++ join
      rw [if_neg h0, if_neg hE]
      have hBne : ps.drop (s + L) ≠ [] := by
        intro h
        have := congrArg List.length h
        rw [hBlen] at this
        simp at this
        omega
      have hMne : List.replicate L ([':'] : Str) ≠ [] := by
        intro h
        have := congrArg List.length h
        rw [List.length_replicate] at this
        simp at this
        omega
      rw [joinSep_append ':' _ _ hAne (by
          intro h
          exact hMne (List.append_eq_nil.mp h).1),
        joinSep_append ':' _ _ hMne hBne, joinSep_replicate_colon L hL1] at hout
      have hblock := colon_block (2 * L - 1) (joinSep ':' (ps.drop (s + L)))
      rw [show 2 * L - 1 + 2 = 2 * L + 1 by omega] at hblock
      rw [hblock] at hout
      have hhd := joinSep_head_ne_colon hB hBne
      have hcoll := collapse_join (ps.take s) hA (by omega : 2 ≤ 2 * L + 1)
        (Or.inr hhd)
      rw [hcoll] at hout
      rw [hout]
      have hsplit := @splitOn_joinSep_append ':' (ps.take s) hAne
        (fun p hp => (hA p hp).2) (':' :: joinSep ':' (ps.drop (s + L)))
      rw [show joinSep ':' (ps.take s) ++ (':' :: ':' :: joinSep ':' (ps.drop (s + L))) =
        joinSep ':' (ps.take s) ++ ':' :: (':' :: joinSep ':' (ps.drop (s + L))) from rfl,
        hsplit, splitOn_sep_cons,
        splitOn_joinSep hBne (fun p hp => (hB p hp).2)]
      simp

/-- The split form of the compressed rendering when no zero run is selected:
the fragments are joined unchanged. -/
theorem compress_split_none {ps : List Str} (hps : ∀ p ∈ ps, p ≠ [] ∧ ':' ∉ p)
    (hne : ps ≠ []) (hsel : selectRun ps = none) :
    splitOn ':' (compressIPv6 ps) = ps := by
  have hmap : (ps.enum.map fun ip => ip.2) = ps := List.enumFrom_map_snd 0 ps
  have hfilter : ∀ p ∈ ps, (!p.isEmpty) = true := by
    intro p hp
    cases hq : p with
    | nil => exact absurd hq (hps p hp).1
    | cons a t => rfl
  simp only [compressIPv6, hsel]
  rw [hmap, List.filter_eq_self.mpr hfilter, collapse_join_id ps hps hne,
    splitOn_joinSep hne (fun p hp => (hps p hp).2)]

/-- Applying `expandIPv6Shorthand` to the split form of a compressed
rendering restores all 8 fragments, with empty fragments for the run. -/
theorem expand_E {ps : List Str} (hps : ∀ p ∈ ps, p ≠ []) (hlen : ps.length = 8)
    {s L : Nat} (hL1 : 1 ≤ L) (hsl : s + L ≤ 8) :
    expandIPv6Shorthand
      ((if s = 0 then [([] : Str)] else ps.take s) ++ [([] : Str)] ++
        (if s + L = 8 then [([] : Str)] else ps.drop (s + L))) =
      some (ps.take s ++ List.replicate L ([] : Str) ++ ps.drop (s + L)) := by
  have hA : ∀ p ∈ ps.take s, p ≠ [] := fun p hp => hps p (List.take_subset s ps hp)
  have hAlen : (ps.take s).length = s := by
    rw [List.length_take]
    omega
  have hBlen : (ps.drop (s + L)).length = 8 - s - L := by
    rw [List.length_drop]
    omega
  by_cases h0 : s = 0
  · subst h0
    simp only [List.take_zero, List.nil_append, if_pos rfl]
    by_cases hE : 0 + L = 8
    · rw [if_pos hE]
      have hL8 : L = 8 := by omega
      have hdrop : ps.drop (0 + L) = [] := List.drop_eq_nil_of_le (by omega)
      rw [hdrop, List.append_nil, hL8]
      rfl
    · rw [if_neg hE]
      show expandIPv6Shorthand ([] :: [] :: ps.drop (0 + L)) = _
      have hidx : idxOfEmpty (([] : Str) :: [] :: ps.drop (0 + L)) = some 0 := by
        simp [idxOfEmpty]
      simp only [expandIPv6Shorthand, hidx, List.length_cons, hBlen]
      rw [if_pos (by omega)]
      congr 1
      rw [show List.take 0 (([] : Str) :: [] :: ps.drop (0 + L)) = [] from rfl,
        show List.drop (0 + 1) (([] : Str) :: [] :: ps.drop (0 + L)) =
          [] :: ps.drop (0 + L) from rfl,
        show 9 - (8 - 0 - L + 1 + 1) = L - 1 by omega, List.nil_append,
        show (([] : Str) :: ps.drop (0 + L)) = [([] : Str)] ++ ps.drop (0 + L) from rfl,
        ← List.append_assoc, ← List.replicate_succ',
        show L - 1 + 1 = L by omega]
  · by_cases hE : s + L = 8
    · rw [if_neg h0, if_pos hE]
      have hdrop : ps.drop (s + L) = [] := List.drop_eq_nil_of_le (by omega)
      rw [hdrop, List.append_nil]
      have hEeq : (ps.take s ++ [([] : Str)]) ++ [([] : Str)] =
          ps.take s ++ ([] :: [([] : Str)] : List Str) := by
        simp
      rw [hEeq]
      simp only [expandIPv6Shorthand]
      rw [idxOfEmpty_append hA]
      simp only [List.length_append, hAlen, List.length_cons, List.length_nil]
      rw [if_pos (by omega)]
      congr 1
      conv_lhs =>
        rw [List.take_left' hAlen,
          show (ps.take s ++ ([] :: [([] : Str)] : List Str)) =
            (ps.take s ++ [([] : Str)]) ++ [([] : Str)] by simp,
          List.drop_left' (by simp [hAlen] : (ps.take s ++ [([] : Str)]).length = s + 1)]
      rw [show 9 - (s + (0 + 1 + 1)) = L - 1 by omega, List.append_assoc,
        ← List.replicate_succ', show L - 1 + 1 = L by omega]
    · rw [if_neg h0, if_neg hE]
      have hEeq : (ps.take s ++ [([] : Str)]) ++ ps.drop (s + L) =
          ps.take s ++ ([] :: ps.drop (s + L)) := by
        simp
      rw [hEeq]
      simp only [expandIPv6Shorthand]
      rw [idxOfEmpty_append hA]
      simp only [List.length_append, hAlen, List.length_cons, hBlen]
      rw [if_pos (by omega)]
      congr 1
      conv_lhs =>
        rw [List.take_left' hAlen,
          show (ps.take s ++ ([] :: ps.drop (s + L) : List Str)) =
            (ps.take s ++ [([] : Str)]) ++ ps.drop (s + L) by simp,
          List.drop_left' (by simp [hAlen] : (ps.take s ++ [([] : Str)]).length = s + 1)]
      rw [show 9 - (s + (8 - s - L + 1)) = L by omega]

/-! ### Round trip of the compressed IPv6 rendering -/

theorem natToHex_frag (g : Nat) : natToHex g ≠ [] ∧ ':' ∉ natToHex g :=
  ⟨natToHex_ne_nil g, colon_not_mem_natToHex g⟩

/-- The run fragments of the selected zero run correspond to zero group
values. -/
theorem run_groups_zero {gs : List Nat} {s L : Nat} (hlen : gs.length = 8)
    (hrun : ∀ j, s ≤ j → j < s + L → (gs.map natToHex)[j]? = some ['0'])
    (hsl : s + L ≤ 8) :
    (gs.drop s).take L = List.replicate L 0 := by
  apply List.ext_getElem?
  intro j
  by_cases hj : j < L
  · rw [List.getElem?_take_of_lt hj, List.getElem?_drop, List.getElem?_replicate,
      if_pos hj]
    have hz := hrun (s + j) (by omega) (by omega)
    rw [List.getElem?_map] at hz
    rcases hgj : gs[s + j]? with _ | g
    · rw [hgj] at hz
      cases hz
    · rw [hgj] at hz
      have hg0 : natToHex g = ['0'] := by
        simpa using hz
      rw [natToHex_eq_zero hg0]
  · rw [List.getElem?_replicate, if_neg hj]
    apply List.getElem?_eq_none
    rw [List.length_take]
    omega

theorem take_replicate_drop_eq {gs : List Nat} {s L : Nat}
    (hseg : (gs.drop s).take L = List.replicate L 0) :
    gs.take s ++ List.replicate L 0 ++ gs.drop (s + L) = gs := by
  have hdd : (gs.drop s).drop L = gs.drop (s + L) := by
    rw [List.drop_drop]
  calc gs.take s ++ List.replicate L 0 ++ gs.drop (s + L)
      = gs.take s ++ ((gs.drop s).take L ++ (gs.drop s).drop L) := by
        rw [hseg, hdd, List.append_assoc]
    _ = gs.take s ++ gs.drop s := by rw [List.take_append_drop]
    _ = gs := List.take_append_drop s gs

/-- The group arm of `ipv6ToBigInt` recovers the group values from the
compressed rendering, and the rendering contains no `%`, `.` or `/`. -/
theorem ipv6_compress_master {gs : List Nat} (hlen : gs.length = 8)
    (hg : ∀ g ∈ gs, g < 65536) :
    ipv6ToBigInt (compressIPv6 (gs.map natToHex)) = some (groupsValue gs) ∧
      (∀ c ∈ compressIPv6 (gs.map natToHex), isHexDigit c = true ∨ c = ':') := by
  set ps := gs.map natToHex with hps0
  have hps : ∀ p ∈ ps, p ≠ [] ∧ ':' ∉ p := by
    intro p hp
    rcases List.mem_map.mp hp with ⟨g, _, rfl⟩
    exact natToHex_frag g
  have hpslen : ps.length = 8 := by rw [hps0, List.length_map, hlen]
  have hpsne : ps ≠ [] := by
    intro h
    rw [h] at hpslen
    cases hpslen
  have hfraghex : ∀ p ∈ ps, ∀ c ∈ p, isHexDigit c = true := by
    intro p hp
    rcases List.mem_map.mp hp with ⟨g, _, rfl⟩
    exact natToHex_all_hex g
  -- the value check passes for any sublist of `ps` fragments plus empties
  have hcheck : ∀ p ∈ ps, (p.all isHexDigit && decide (p.length ≤ 4)) = true := by
    intro p hp
    rcases List.mem_map.mp hp with ⟨g, hgm, rfl⟩
    exact hexGroup_check (natToHex_all_hex g) (natToHex_length_le4 (hg g hgm))
  have hvals : ps.map groupVal = gs := by
    rw [hps0, List.map_map]
    conv_rhs => rw [← List.map_id gs]
    exact List.map_congr_left (fun g _ => groupVal_natToHex g)
  rcases hsel : selectRun ps with _ | ⟨s, L⟩
  · -- no zero run selected: all 8 fragments are joined unchanged
    have hsplit := compress_split_none hps hpsne hsel
    have hout : compressIPv6 ps = joinSep ':' ps := by
      conv_lhs => rw [← joinSep_splitOn ':' (compressIPv6 ps), hsplit]
    have hchars : ∀ c ∈ compressIPv6 ps, isHexDigit c = true ∨ c = ':' := by
      intro c hc
      rw [hout] at hc
      rcases mem_joinSep hc with h | ⟨p, hp, hcp⟩
      · exact Or.inr h
      · exact Or.inl (hfraghex p hp c hcp)
    refine ⟨?_, hchars⟩
    have hnp : '%' ∉ compressIPv6 ps := by
      intro h
      rcases hchars '%' h with h | h
      · exact (hex_ne_special h).2.2.1 rfl
      · cases h
    have hnd : '.' ∉ compressIPv6 ps := by
      intro h
      rcases hchars '.' h with h | h
      · exact (hex_ne_special h).2.1 rfl
      · cases h
    rw [ipv6ToBigInt, if_neg hnp]
    simp only [ipv6Core]
    rw [v4MappedSplit_none_of_no_dot hnd, hsplit,
      show expandIPv6Shorthand ps = some ps by
        simp [expandIPv6Shorthand, idxOfEmpty_none (fun p hp => (hps p hp).1)]]
    show (if ps.length = 8 ∧
        (ps.all fun p => List.all p isHexDigit && decide (List.length p ≤ 4)) = true then
      some (sumExp ((ps.map groupVal).reverse) 0) else none) = some (groupsValue gs)
    rw [if_pos ⟨hpslen, List.all_eq_true.mpr hcheck⟩, hvals, sumExp_reverse]
  · -- a zero run `[s, s+L)` is selected
    have hzr := selectRun_spec ps (s, L) hsel
    obtain ⟨hL1, hsl, hrun⟩ := hzr
    simp only at hL1 hsl hrun
    have hsplit := compress_split_some hps (by omega) hsel ⟨hL1, hsl, hrun⟩
    rw [hpslen] at hsplit
    set E := (if s = 0 then [([] : Str)] else ps.take s) ++ [([] : Str)] ++
      (if s + L = 8 then [([] : Str)] else ps.drop (s + L)) with hE
    have hout : compressIPv6 ps = joinSep ':' E := by
      conv_lhs => rw [← joinSep_splitOn ':' (compressIPv6 ps), hsplit]
    have hEfrag : ∀ p ∈ E, p = [] ∨ p ∈ ps := by
      intro p hp
      rw [hE] at hp
      rcases List.mem_append.mp hp with h | h
      · rcases List.mem_append.mp h with h | h
        · split at h
          · simp only [List.mem_singleton] at h
            exact Or.inl h
          · exact Or.inr (List.take_subset s ps h)
        · simp only [List.mem_singleton] at h
          exact Or.inl h
      · split at h
        · simp only [List.mem_singleton] at h
          exact Or.inl h
        · exact Or.inr (List.drop_subset (s + L) ps h)
    have hchars : ∀ c ∈ compressIPv6 ps, isHexDigit c = true ∨ c = ':' := by
      intro c hc
      rw [hout] at hc
      rcases mem_joinSep hc with h | ⟨p, hp, hcp⟩
      · exact Or.inr h
      · rcases hEfrag p hp with h | h
        · rw [h] at hcp
          cases hcp
        · exact Or.inl (hfraghex p h c hcp)
    refine ⟨?_, hchars⟩
    have hnp : '%' ∉ compressIPv6 ps := by
      intro h
      rcases hchars '%' h with h | h
      · exact (hex_ne_special h).2.2.1 rfl
      · cases h
    have hnd : '.' ∉ compressIPv6 ps := by
      intro h
      rcases hchars '.' h with h | h
      · exact (hex_ne_special h).2.1 rfl
      · cases h
    rw [ipv6ToBigInt, if_neg hnp]
    simp only [ipv6Core]
    rw [v4MappedSplit_none_of_no_dot hnd, hsplit, hE,
      expand_E (fun p hp => (hps p hp).1) hpslen hL1 (by omega)]
    set parts := ps.take s ++ List.replicate L ([] : Str) ++ ps.drop (s + L) with hparts
    have hplen : parts.length = 8 := by
      rw [hparts]
      simp only [List.length_append, List.length_take, List.length_replicate,
        List.length_drop, hpslen]
      omega
    have hpcheck : ∀ p ∈ parts,
        (p.all isHexDigit && decide (p.length ≤ 4)) = true := by
      intro p hp
      rw [hparts] at hp
      rcases List.mem_append.mp hp with h | h
      · rcases List.mem_append.mp h with h | h
        · exact hcheck p (List.take_subset s ps h)
        · rw [List.eq_of_mem_replicate h]
          rfl
      · exact hcheck p (List.drop_subset (s + L) ps h)
    have hpvals : parts.map groupVal = gs := by
      rw [hparts]
      simp only [List.map_append, List.map_replicate]
      rw [hps0, List.map_take, List.map_drop, List.map_map]
      have hcomp : List.map (groupVal ∘ natToHex) gs = gs := by
        conv_rhs => rw [← List.map_id gs]
        exact List.map_congr_left (fun g _ => groupVal_natToHex g)
      rw [hcomp, show groupVal ([] : Str) = 0 from rfl]
      rw [hps0] at hrun
      exact take_replicate_drop_eq (run_groups_zero hlen hrun (by omega))
    show (if parts.length = 8 ∧
        (parts.all fun p => List.all p isHexDigit && decide (List.length p ≤ 4)) = true then
      some (sumExp ((parts.map groupVal).reverse) 0) else none) = some (groupsValue gs)
    rw [if_pos ⟨hplen, List.all_eq_true.mpr hpcheck⟩, hpvals, sumExp_reverse]

theorem ipv6_compressed_roundtrip {n : Nat} (hn : n < 2 ^ 128)
    (hm : n / 2 ^ 32 ≠ 0xffff) :
    ipv6ToBigInt (bigIntToIp (n : Int) 6 true) = some n := by
  have hb : bigIntToIp (n : Int) 6 true =
      compressIPv6 ((v6Groups (n : Int)).map natToHex) := by
    simp only [bigIntToIp]
    rw [if_neg (by omega), if_neg (fun hc => hm ((mapped_test_natCast n).mp hc))]
    simp
  rw [hb, v6Groups_natCast]
  set gs := (List.range 8).map (fun i => n / 2 ^ (112 - 16 * i) % 2 ^ 16) with hgs
  have hlen : gs.length = 8 := by simp [hgs]
  have hglt : ∀ g ∈ gs, g < 65536 := by
    intro g hgm
    rw [hgs] at hgm
    rcases List.mem_map.mp hgm with ⟨i, _, rfl⟩
    exact Nat.mod_lt _ (by norm_num)
  rw [(ipv6_compress_master hlen hglt).1, groupsValue_v6Groups hn]

/-! ### Every IPv6 rendering passes `IPV6_VALIDATION_REGEX` -/

theorem isSeg_natToHex {g : Nat} (hg : g < 65536) : isSeg (natToHex g) = true := by
  have h1 : (natToHex g).isEmpty = false := by
    cases h : natToHex g with
    | nil => exact absurd h (natToHex_ne_nil g)
    | cons a t => rfl
  simp [isSeg, h1, natToHex_length_le4 hg, List.all_eq_true.mpr (natToHex_all_hex g)]

/-- The shape `A::B` with `1 ≤ |A|`, `1 ≤ |B|`, `|A| + |B| ≤ 7` matches the
inner-compression alternative with `bMax = |B|`. -/
theorem v6Mid_shape {A B : List Str} (hAne : ∀ p ∈ A, p ≠ [])
    (hA : ∀ p ∈ A, isSeg p = true) (hB : ∀ p ∈ B, isSeg p = true)
    (ha1 : 1 ≤ A.length) (hb1 : 1 ≤ B.length) (hab : A.length + B.length ≤ 7) :
    v6Mid (7 - B.length) B.length (A ++ [([] : Str)] ++ B) = true := by
  have hidx : idxOfEmpty (A ++ [([] : Str)] ++ B) = some A.length := by
    rw [List.append_assoc]
    exact idxOfEmpty_append hAne B
  have htake : (A ++ [([] : Str)] ++ B).take A.length = A := by
    rw [List.append_assoc]
    exact List.take_left' rfl
  have hdrop : (A ++ [([] : Str)] ++ B).drop (A.length + 1) = B :=
    List.drop_left' (by simp)
  simp only [v6Mid, hidx, htake, hdrop]
  simp [List.all_eq_true.mpr hA, List.all_eq_true.mpr hB, ha1, hb1]
  omega

theorem regex_of_std {g : List Str} (h : v6Std g = true) :
    ipv6ValidationRegex g = true := by simp [ipv6ValidationRegex, h]

theorem regex_of_c1 {g : List Str} (h : v6C1 g = true) :
    ipv6ValidationRegex g = true := by simp [ipv6ValidationRegex, h]

theorem regex_of_c2 {g : List Str} (h : v6C2 g = true) :
    ipv6ValidationRegex g = true := by simp [ipv6ValidationRegex, h]

theorem regex_of_mid61 {g : List Str} (h : v6Mid 6 1 g = true) :
    ipv6ValidationRegex g = true := by simp [ipv6ValidationRegex, h]

theorem regex_of_mid52 {g : List Str} (h : v6Mid 5 2 g = true) :
    ipv6ValidationRegex g = true := by simp [ipv6ValidationRegex, h]

theorem regex_of_mid43 {g : List Str} (h : v6Mid 4 3 g = true) :
    ipv6ValidationRegex g = true := by simp [ipv6ValidationRegex, h]

theorem regex_of_mid34 {g : List Str} (h : v6Mid 3 4 g = true) :
    ipv6ValidationRegex g = true := by simp [ipv6ValidationRegex, h]

theorem regex_of_mid25 {g : List Str} (h : v6Mid 2 5 g = true) :
    ipv6ValidationRegex g = true := by simp [ipv6ValidationRegex, h]

theorem regex_of_mid16 {g : List Str} (h : v6Mid 1 6 g = true) :
    ipv6ValidationRegex g = true := by simp [ipv6ValidationRegex, h]

theorem regex_of_mapped {g : List Str} (h : v6Mapped g = true) :
    ipv6ValidationRegex g = true := by simp [ipv6ValidationRegex, h]

theorem ipv6IsValid_compress {gs : List Nat} (hlen : gs.length = 8)
    (hg : ∀ g ∈ gs, g < 65536) :
    ipv6IsValid (compressIPv6 (gs.map natToHex)) = true := by
  set ps := gs.map natToHex with hps0
  have hps : ∀ p ∈ ps, p ≠ [] ∧ ':' ∉ p := by
    intro p hp
    rcases List.mem_map.mp hp with ⟨g, _, rfl⟩
    exact natToHex_frag g
  have hpslen : ps.length = 8 := by rw [hps0, List.length_map, hlen]
  have hseg : ∀ p ∈ ps, isSeg p = true := by
    intro p hp
    rcases List.mem_map.mp hp with ⟨g, hgm, rfl⟩
    exact isSeg_natToHex (hg g hgm)
  have hslash : '/' ∉ compressIPv6 ps := by
    intro h
    rcases (ipv6_compress_master hlen hg).2 '/' h with h | h
    · exact (hex_ne_special h).2.2.2 rfl
    · cases h
  rw [ipv6IsValid, if_neg hslash]
  rcases hsel : selectRun ps with _ | ⟨s, L⟩
  · rw [compress_split_none hps (by intro h; rw [h] at hpslen; cases hpslen) hsel]
    have hstd : v6Std ps = true := by
      simp [v6Std, hpslen, List.all_eq_true.mpr hseg]
    exact regex_of_std hstd
  · obtain ⟨hL1, hsl, hrun⟩ := selectRun_spec ps (s, L) hsel
    simp only at hL1 hsl hrun
    have hsplit := compress_split_some hps (by omega) hsel ⟨hL1, hsl, hrun⟩
    rw [hpslen] at hsplit hsl
    rw [hsplit]
    have hAlen : (ps.take s).length = s := by
      rw [List.length_take, hpslen]
      omega
    have hBlen : (ps.drop (s + L)).length = 8 - (s + L) := by
      rw [List.length_drop, hpslen]
    have hallA : ∀ p ∈ ps.take s, isSeg p = true :=
      fun p hp => hseg p (List.take_subset s ps hp)
    have hallB : ∀ p ∈ ps.drop (s + L), isSeg p = true :=
      fun p hp => hseg p (List.drop_subset (s + L) ps hp)
    by_cases hs0 : s = 0
    · by_cases hend : s + L = 8
      · rw [if_pos hs0, if_pos hend]
        decide
      · rw [if_pos hs0, if_neg hend]
        have hc2 : v6C2 ([([] : Str)] ++ [[]] ++ ps.drop (s + L)) = true := by
          show v6C2 ([] :: [] :: ps.drop (s + L)) = true
          simp only [v6C2, List.length_cons, hBlen, List.take_succ_cons,
            List.take_zero, List.drop_succ_cons, List.drop_zero]
          simp [List.all_eq_true.mpr hallB]
          omega
        exact regex_of_c2 hc2
    · by_cases hend : s + L = 8
      · rw [if_neg hs0, if_pos hend]
        have hc1 : v6C1 (ps.take s ++ [([] : Str)] ++ [[]]) = true := by
          have hlen2 : (ps.take s ++ [([] : Str)] ++ [[]]).length = s + 2 := by
            simp [hAlen]
          have htake : (ps.take s ++ [([] : Str)] ++ [[]]).take (s + 2 - 2) =
              ps.take s := by
            show (ps.take s ++ [([] : Str)] ++ [[]]).take s = ps.take s
            rw [List.append_assoc]
            exact List.take_left' hAlen
          have hdrop : (ps.take s ++ [([] : Str)] ++ [[]]).drop (s + 2 - 2) =
              [([] : Str), []] := by
            show (ps.take s ++ [([] : Str)] ++ [[]]).drop s = [([] : Str), []]
            rw [List.append_assoc]
            exact List.drop_left' hAlen
          simp only [v6C1, hlen2, htake, hdrop]
          simp [List.all_eq_true.mpr hallA]
          omega
        exact regex_of_c1 hc1
      · rw [if_neg hs0, if_neg hend]
        have hAne : ∀ p ∈ ps.take s, p ≠ [] :=
          fun p hp => (hps p (List.take_subset s ps hp)).1
        have hmid := v6Mid_shape hAne hallA hallB (by omega) (by omega) (by omega)
        rw [hBlen] at hmid
        obtain ⟨b, hb⟩ : ∃ b, 8 - (s + L) = b := ⟨_, rfl⟩
        rw [hb] at hmid
        have hb1 : 1 ≤ b := by omega
        have hb6 : b ≤ 6 := by omega
        interval_cases b
        · exact regex_of_mid61 (by simpa using hmid)
        · exact regex_of_mid52 (by simpa using hmid)
        · exact regex_of_mid43 (by simpa using hmid)
        · exact regex_of_mid34 (by simpa using hmid)
        · exact regex_of_mid25 (by simpa using hmid)
        · exact regex_of_mid16 (by simpa using hmid)

theorem ipv6IsValid_mapped (w : Int) :
    ipv6IsValid ((':' :: ':' :: 'f' :: 'f' :: 'f' :: 'f' :: ':' :: []) ++
      bigIntToIpv4 w) = true := by
  set quad := bigIntToIpv4 w with hq
  have hqchars : ∀ c ∈ quad, isDigit c = true ∨ c = '.' := v4render_chars w
  have hqcolon : ':' ∉ quad := by
    intro h
    rcases hqchars ':' h with h | h
    · exact (digit_ne_special h).1 rfl
    · cases h
  have hslash : '/' ∉ (':' :: ':' :: 'f' :: 'f' :: 'f' :: 'f' :: ':' :: []) ++ quad := by
    intro hmem
    rcases List.mem_append.mp hmem with h | h
    · simp at h
    · rcases hqchars '/' h with h | h
      · exact (digit_ne_special h).2.2.2 rfl
      · cases h
  rw [ipv6IsValid, if_neg hslash]
  have hsplit : splitOn ':'
      ((':' :: ':' :: 'f' :: 'f' :: 'f' :: 'f' :: ':' :: []) ++ quad) =
      [[], [], ['f', 'f', 'f', 'f'], quad] := by
    show splitOn ':' (':' :: ':' :: (['f', 'f', 'f', 'f'] ++ ':' :: quad)) = _
    rw [splitOn_sep_cons, splitOn_sep_cons,
      splitOn_append_sep (by decide) quad, splitOn_no_sep hqcolon]
  rw [hsplit]
  have h256 : (2 : Nat) ^ 8 = 256 := by norm_num
  have hquadOk : isQuad quad = true := by
    simp only [isQuad, hq, v4render_split w]
    simp only [List.length_cons, List.length_nil, List.all_cons, List.all_nil,
      isIpv4Part_natToDec (h256 ▸ jsMask_lt (jsShr w 24) 8),
      isIpv4Part_natToDec (h256 ▸ jsMask_lt (jsShr w 16) 8),
      isIpv4Part_natToDec (h256 ▸ jsMask_lt (jsShr w 8) 8),
      isIpv4Part_natToDec (h256 ▸ jsMask_lt w 8), Bool.and_true]
    decide
  have hmapped : v6Mapped [[], [], ['f', 'f', 'f', 'f'], quad] = true := by
    have h : v6Mapped [[], [], ['f', 'f', 'f', 'f'], quad] = (isQuad quad && true) := rfl
    rw [h, hquadOk]
    rfl
  exact regex_of_mapped hmapped

/-- The operand range forced by the IPv4-mapped test `number >> 32n === 0xffffn`. -/
theorem ipv6_mapped_bounds {v : Int} (h : jsShr v 32 = ((0xffff : Nat) : Int)) :
    (0xffff * 2 ^ 32 : Int) ≤ v ∧ v < 0x10000 * 2 ^ 32 := by
  have hc : ((2 ^ 32 : Nat) : Int) = 4294967296 := by norm_num
  simp only [jsShr, hc] at h
  constructor <;> omega

/-- `IPv6.fromBigInt` never fails: for any integer it silently stores the low
128 bits (two's complement wrap). -/
theorem ipv6FromBigInt_wrap (v : Int) : ipv6FromBigInt v = some (jsMask v 128) := by
  simp only [ipv6FromBigInt, ipv6New]
  set n := jsMask v 128 with hndef
  have hn128 : n < 2 ^ 128 := jsMask_lt v 128
  by_cases hmap : jsShr v 32 = ((0xffff : Nat) : Int)
  · have hbound := ipv6_mapped_bounds hmap
    have hn : ((n : Nat) : Int) = v := by
      rw [hndef]
      simp only [jsMask]
      have hc : ((2 ^ 128 : Nat) : Int) = 340282366920938463463374607431768211456 := by
        norm_num
      rw [hc]
      omega
    have hlo : 0xffff * 2 ^ 32 ≤ n := by
      have := hbound.1
      rw [← hn] at this
      exact_mod_cast this
    have hhi : n < 0x10000 * 2 ^ 32 := by
      have := hbound.2
      rw [← hn] at this
      exact_mod_cast this
    have hveq : bigIntToIp v 6 true = bigIntToIp ((n : Nat) : Int) 6 true := by
      rw [hn]
    have hbm : bigIntToIp ((n : Nat) : Int) 6 true =
        (':' :: ':' :: 'f' :: 'f' :: 'f' :: 'f' :: ':' :: []) ++
          bigIntToIpv4 ((jsMask ((n : Nat) : Int) 32 : Nat) : Int) := by
      simp only [bigIntToIp]
      rw [if_neg (by omega), if_pos (by rw [hn]; exact hmap)]
    rw [hveq, hbm, ipv6IsValid_mapped, if_pos rfl, ← hbm]
    exact ipv6_mapped_roundtrip hlo hhi true
  · have hb : bigIntToIp v 6 true = compressIPv6 ((v6Groups v).map natToHex) := by
      simp only [bigIntToIp]
      rw [if_neg (by omega), if_neg hmap]
      simp
    rw [hb, v6Groups_wrap v, ← hndef, v6Groups_natCast]
    set gs := (List.range 8).map (fun i => n / 2 ^ (112 - 16 * i) % 2 ^ 16) with hgs
    have hlen : gs.length = 8 := by simp [hgs]
    have hglt : ∀ g ∈ gs, g < 65536 := by
      intro g hgm
      rw [hgs] at hgm
      rcases List.mem_map.mp hgm with ⟨i, _, rfl⟩
      exact Nat.mod_lt _ (by norm_num)
    rw [ipv6IsValid_compress hlen hglt, if_pos rfl,
      (ipv6_compress_master hlen hglt).1, groupsValue_v6Groups hn128]

/-! ### CIDR range arithmetic -/

theorem pred_two_pow_mod {j w : Nat} (h : j ≤ w) : (2 ^ w - 1) % 2 ^ j = 2 ^ j - 1 := by
  set D := 2 ^ j with hD
  set M := 2 ^ (w - j) with hM
  have hD1 : 0 < D := by positivity
  have hM1 : 0 < M := by positivity
  have hw : 2 ^ w = D * M := by
    rw [hD, hM, ← pow_add]
    congr 1
    omega
  have hDM : D ≤ D * M := Nat.le_mul_of_pos_right D hM1
  have key : 2 ^ w - 1 = D * (M - 1) + (D - 1) := by
    rw [Nat.mul_sub, Nat.mul_one, hw]
    omega
  rw [key, Nat.mul_add_mod, Nat.mod_eq_of_lt (by omega)]

/-- The `netmask` value `(MAX << (w - p)) & MAX` is the high-`p`-bits mask. -/
theorem netmask_val {w p : Nat} (hp : p ≤ w) :
    ((2 ^ w - 1) <<< (w - p)) &&& (2 ^ w - 1) = 2 ^ w - 2 ^ (w - p) := by
  rw [Nat.shiftLeft_eq, Nat.and_pow_two_sub_one_eq_mod]
  have hsplit : 2 ^ w = 2 ^ p * 2 ^ (w - p) := by
    rw [← pow_add]
    congr 1
    omega
  calc (2 ^ w - 1) * 2 ^ (w - p) % 2 ^ w
      = (2 ^ w - 1) * 2 ^ (w - p) % (2 ^ p * 2 ^ (w - p)) := by rw [← hsplit]
    _ = ((2 ^ w - 1) % 2 ^ p) * 2 ^ (w - p) := Nat.mul_mod_mul_right _ _ _
    _ = (2 ^ p - 1) * 2 ^ (w - p) := by rw [pred_two_pow_mod hp]
    _ = 2 ^ w - 2 ^ (w - p) := by
        rw [Nat.sub_mul, one_mul, ← pow_add,
          show p + (w - p) = w by omega]

/-- The `hostmask` value `MAX >> p` is the low-`(w-p)`-bits mask. -/
theorem hostmask_val {w p : Nat} (hp : p ≤ w) :
    (2 ^ w - 1) >>> p = 2 ^ (w - p) - 1 := by
  rw [Nat.shiftRight_eq_div_pow]
  set D := 2 ^ p with hD
  have hD1 : 0 < D := by positivity
  have hw : D * 2 ^ (w - p) = 2 ^ w := by
    rw [hD, ← pow_add]
    congr 1
    omega
  have hDw : D ≤ 2 ^ w := by
    rw [← hw]
    exact Nat.le_mul_of_pos_right D (by positivity)
  have key : 2 ^ w - 1 = D * (2 ^ (w - p) - 1) + (D - 1) := by
    rw [Nat.mul_sub, Nat.mul_one, hw]
    omega
  rw [key, Nat.mul_add_div hD1, Nat.div_eq_of_lt (by omega)]
  exact Nat.add_zero _

theorem netmask_and_hostmask {w p : Nat} (hp : p ≤ w) :
    (2 ^ w - 2 ^ (w - p)) &&& (2 ^ (w - p) - 1) = 0 := by
  rw [Nat.and_pow_two_sub_one_eq_mod]
  have hsplit : 2 ^ (w - p) * 2 ^ p = 2 ^ w := by
    rw [← pow_add]
    congr 1
    omega
  rw [show 2 ^ w - 2 ^ (w - p) = 2 ^ (w - p) * (2 ^ p - 1) by
      rw [Nat.mul_sub, Nat.mul_one, hsplit],
    Nat.mul_mod_right]

/-- The closed forms of the four derived getters of a CIDR block. -/
theorem cidr_masks (c : CIDRm) (hp : c.plen ≤ bitsOf c.ver) :
    cidrNetmask c = 2 ^ bitsOf c.ver - 2 ^ (bitsOf c.ver - c.plen) ∧
    cidrBroadcast c = cidrNetwork c + (2 ^ (bitsOf c.ver - c.plen) - 1) ∧
    cidrNetwork c < 2 ^ bitsOf c.ver ∧
    cidrBroadcast c < 2 ^ bitsOf c.ver := by
  have hnm : cidrNetmask c = 2 ^ bitsOf c.ver - 2 ^ (bitsOf c.ver - c.plen) := by
    rw [cidrNetmask, maxIP]
    exact netmask_val hp
  have hnm0 : cidrNetmask c &&& (2 ^ (bitsOf c.ver - c.plen) - 1) = 0 := by
    rw [hnm]
    exact netmask_and_hostmask hp
  have hand : cidrNetwork c &&& (2 ^ (bitsOf c.ver - c.plen) - 1) = 0 := by
    rw [cidrNetwork, Nat.and_assoc, hnm0, Nat.and_zero]
  have hbc : cidrBroadcast c = cidrNetwork c + (2 ^ (bitsOf c.ver - c.plen) - 1) := by
    rw [cidrBroadcast, maxIP, hostmask_val hp]
    exact or_eq_add_of_and_eq_zero hand
  have hmono : (2 : Nat) ^ (bitsOf c.ver - c.plen) ≤ 2 ^ bitsOf c.ver :=
    Nat.pow_le_pow_right (by omega) (by omega)
  have hpos : 0 < (2 : Nat) ^ (bitsOf c.ver - c.plen) := by positivity
  have hle : cidrNetwork c ≤ cidrNetmask c := Nat.and_le_right
  refine ⟨hnm, hbc, by omega, by omega⟩

/-- The invariants of a CIDR block's derived range (any version, any prefix
up to the version's width). -/
theorem cidr_invariants (c : CIDRm) (hp : c.plen ≤ bitsOf c.ver) :
    cidrNetwork c ≤ cidrLast c ∧
    cidrFirst c ≤ cidrLast c ∧
    cidrContains c (.inst ⟨c.ver, cidrNetwork c⟩) = some true ∧
    cidrContains c (.inst ⟨c.ver, cidrBroadcast c⟩) = some true ∧
    ((c.ver = .v6 ∨ 31 ≤ c.plen) →
      cidrFirst c = cidrNetwork c ∧ cidrLast c = cidrBroadcast c) := by
  obtain ⟨hnm, hbc, hnw, hbw⟩ := cidr_masks c hp
  have hnb : cidrNetwork c ≤ cidrBroadcast c := by omega
  have hcont : ∀ x, cidrNetwork c ≤ x → x ≤ cidrBroadcast c →
      cidrContains c (.inst ⟨c.ver, x⟩) = some true := by
    intro x h1 h2
    simp [cidrContains, h1, h2]
  rcases hv : c.ver with _ | _
  · -- IPv4
    simp only [hv] at hcont
    have hw32 : bitsOf c.ver = 32 := by rw [hv]; rfl
    rw [hw32] at hp hnm hbc hnw hbw
    by_cases h31 : 31 ≤ c.plen
    · have hf : cidrFirst c = cidrNetwork c := by
        simp [cidrFirst, hv, h31]
      have hl : cidrLast c = cidrBroadcast c := by
        simp [cidrLast, hv, h31]
      exact ⟨hl ▸ hnb, by rw [hf, hl]; exact hnb,
        hcont _ le_rfl hnb, hcont _ hnb le_rfl, fun _ => ⟨hf, hl⟩⟩
    · -- prefix at most 30: first = network + 1, last = broadcast - 1
      have h4 : 4 ≤ 2 ^ (32 - c.plen) := by
        calc (4 : Nat) = 2 ^ 2 := rfl
        _ ≤ 2 ^ (32 - c.plen) := Nat.pow_le_pow_right (by omega) (by omega)
      have hf : cidrFirst c = cidrNetwork c + 1 := by
        simp only [cidrFirst, hv, if_neg h31, ipNext, bitsOf]
        rw [show ((cidrNetwork c : Int) + 1) = (((cidrNetwork c + 1 : Nat) : Nat) : Int)
            by push_cast; ring, jsMask_natCast]
        exact Nat.mod_eq_of_lt (by omega)
      have hl : cidrLast c = cidrBroadcast c - 1 := by
        simp only [cidrLast, hv, if_neg h31, ipPrevious, bitsOf]
        rw [show ((cidrBroadcast c : Int) - 1) = (((cidrBroadcast c - 1 : Nat) : Nat) : Int)
            by rw [hbc]; push_cast; omega, jsMask_natCast]
        exact Nat.mod_eq_of_lt (by omega)
      refine ⟨by omega, by omega, hcont _ le_rfl hnb, hcont _ hnb le_rfl, ?_⟩
      rintro (h | h)
      · exact absurd h (by decide)
      · exact absurd h h31
  · -- IPv6: first = network and last = broadcast always
    simp only [hv] at hcont
    have hf : cidrFirst c = cidrNetwork c := by simp [cidrFirst, hv]
    have hl : cidrLast c = cidrBroadcast c := by simp [cidrLast, hv]
    exact ⟨hl ▸ hnb, by rw [hf, hl]; exact hnb,
      hcont _ le_rfl hnb, hcont _ hnb le_rfl, fun _ => ⟨hf, hl⟩⟩

/-- A successfully constructed CIDR has its prefix within the version's
width. -/
theorem cidrNew_plen {s : Str} {c : CIDRm} (h : cidrNew s = some c) :
    c.plen ≤ bitsOf c.ver := by
  simp only [cidrNew] at h
  split at h
  · cases h
  · split at h
    · cases h
    · split at h
      · cases h
      · split at h
        · cases h
        · split at h
          · cases h
          · rename_i pfx _ _ hcond
            cases h
            simp only
            omega

/-! ### Zone-identifier stripping -/

theorem splitLastPercent_none {z : Str} (hz : '%' ∉ z) : splitLastPercent z = none := by
  induction z with
  | nil => rfl
  | cons c cs ih =>
    have hc : ¬(c = '%') := fun h => hz (h ▸ List.mem_cons_self c cs)
    have hr := ih (fun hm => hz (List.mem_cons_of_mem c hm))
    simp [splitLastPercent, hr, hc]

theorem splitLastPercent_append {s z : Str} (hs : '%' ∉ s) (hz : '%' ∉ z)
    (hzne : z ≠ []) : splitLastPercent (s ++ '%' :: z) = some (s, z) := by
  induction s with
  | nil => simp [splitLastPercent, splitLastPercent_none hz, hzne]
  | cons c cs ih =>
    have hr := ih (fun hm => hs (List.mem_cons_of_mem c hm))
    simp [splitLastPercent, hr]

theorem splitTerm_no_term {s : Str} (h : ∀ c ∈ s, isLineTerm c = false) :
    splitTerm s = [s] := by
  induction s with
  | nil => rfl
  | cons c cs ih =>
    have hc : isLineTerm c = false := h c (by simp)
    simp [splitTerm, hc, ih (fun d hd => h d (List.mem_cons_of_mem c hd))]

/-- On a line-terminator-free literal the zone regex matches once, at the
appended `%`. -/
theorem stripZone_append {s z : Str} (hs : '%' ∉ s) (hsne : s ≠ [])
    (hst : ∀ c ∈ s, isLineTerm c = false) (hz : '%' ∉ z) (hzne : z ≠ [])
    (hzt : ∀ c ∈ z, isLineTerm c = false) :
    stripZone (s ++ '%' :: z) = some s := by
  have hall : ∀ c ∈ s ++ '%' :: z, isLineTerm c = false := by
    intro c hc
    rcases List.mem_append.mp hc with h | h
    · exact hst c h
    · rcases List.mem_cons.mp h with h | h
      · subst h
        rfl
      · exact hzt c h
  rw [stripZone, splitTerm_no_term hall]
  simp [List.findSome?, splitLastPercent_append hs hz hzne, hsne]

/-- Appending a percent-free, line-terminator-free, non-empty zone suffix to
a percent-free, terminator-free literal leaves the parsed value unchanged:
the zone text is discarded without validation. -/
theorem ipv6ToBigInt_zone {s z : Str} (hs : '%' ∉ s) (hsne : s ≠ [])
    (hst : ∀ c ∈ s, isLineTerm c = false) (hz : '%' ∉ z) (hzne : z ≠ [])
    (hzt : ∀ c ∈ z, isLineTerm c = false) :
    ipv6ToBigInt (s ++ '%' :: z) = ipv6Core s := by
  rw [ipv6ToBigInt, if_pos (by simp : '%' ∈ s ++ '%' :: z),
    stripZone_append hs hsne hst hz hzne hzt]
  rfl

theorem ipv6ToBigInt_no_percent {s : Str} (hs : '%' ∉ s) :
    ipv6ToBigInt s = ipv6Core s := by
  rw [ipv6ToBigInt, if_neg hs]

/-! ### The ARPA rendering -/

/-- Specification-side reference for `toArpa` (from the spec's words): the 32
zero-padded lowercase hex nibbles of the 128-bit value, in reversed nibble
order, joined with `.`, followed by `.ip6.arpa`. -/
def arpaSpecIPv6 (n : Nat) : Str :=
  let nibbles := (List.range 32).map (fun i => digitChar (n / 16 ^ (31 - i) % 16))
  joinSep '.' (nibbles.reverse.map (fun c => [c])) ++ ".ip6.arpa".toList

theorem filter_ne_colon_self {p : Str} (hp : ':' ∉ p) :
    p.filter (fun c => c ≠ ':') = p := by
  apply List.filter_eq_self.mpr
  intro c hc
  simp only [ne_eq, decide_eq_true_eq]
  exact fun h => hp (h ▸ hc)

theorem filter_joinSep {ps : List Str} (hps : ∀ p ∈ ps, ':' ∉ p) :
    (joinSep ':' ps).filter (fun c => c ≠ ':') = ps.join := by
  induction ps with
  | nil => rfl
  | cons p qs ih =>
    cases qs with
    | nil =>
      show p.filter (fun c => c ≠ ':') = [p].join
      rw [filter_ne_colon_self (hps p (by simp))]
      simp
    | cons q rs =>
      rw [joinSep_cons ':' p (by simp), List.filter_append,
        filter_ne_colon_self (hps p (by simp)),
        show (':' :: joinSep ':' (q :: rs)).filter (fun c => c ≠ ':') =
          (joinSep ':' (q :: rs)).filter (fun c => c ≠ ':') by simp [List.filter],
        ih (fun r hr => hps r (List.mem_cons_of_mem p hr))]
      simp [List.join]

/-- The zero-padded hex rendering of a group, nibble by nibble. -/
theorem padTo4_natToHex_nibbles {g : Nat} (hg : g < 65536) :
    padTo4 (natToHex g) =
      [digitChar (g / 4096 % 16), digitChar (g / 256 % 16),
       digitChar (g / 16 % 16), digitChar (g % 16)] := by
  by_cases h1 : g < 16
  · rw [natToHex_eq, if_pos h1,
      show g / 4096 % 16 = 0 by omega, show g / 256 % 16 = 0 by omega,
      show g / 16 % 16 = 0 by omega, show g % 16 = g by omega]
    rfl
  · by_cases h2 : g < 256
    · rw [natToHex_eq g, if_neg h1, natToHex_eq (g / 16),
        if_pos (by omega : g / 16 < 16),
        show g / 4096 % 16 = 0 by omega, show g / 256 % 16 = 0 by omega,
        show g / 16 % 16 = g / 16 by omega]
      rfl
    · by_cases h3 : g < 4096
      · rw [natToHex_eq g, if_neg h1, natToHex_eq (g / 16), if_neg (by omega),
          natToHex_eq (g / 16 / 16), if_pos (by omega : g / 16 / 16 < 16),
          show g / 16 / 16 = g / 256 by omega,
          show g / 4096 % 16 = 0 by omega, show g / 256 % 16 = g / 256 by omega]
        rfl
      · rw [natToHex_eq g, if_neg h1, natToHex_eq (g / 16), if_neg (by omega),
          natToHex_eq (g / 16 / 16), if_neg (by omega),
          natToHex_eq (g / 16 / 16 / 16), if_pos (by omega : g / 16 / 16 / 16 < 16),
          show g / 16 / 16 / 16 = g / 4096 by omega,
          show g / 16 / 16 = g / 256 by omega,
          show g / 4096 % 16 = g / 4096 by omega]
        rfl

/-- The nibble block of one group extracted from the 128-bit value. -/
theorem nibble_block (x : Nat) :
    padTo4 (natToHex (x % 65536)) =
      [digitChar (x / 4096 % 16), digitChar (x / 256 % 16),
       digitChar (x / 16 % 16), digitChar (x % 16)] := by
  rw [padTo4_natToHex_nibbles (Nat.mod_lt x (by norm_num)),
    show x % 65536 / 4096 % 16 = x / 4096 % 16 by omega,
    show x % 65536 / 256 % 16 = x / 256 % 16 by omega,
    show x % 65536 / 16 % 16 = x / 16 % 16 by omega,
    show x % 65536 % 16 = x % 16 by omega]

/-- Outside the IPv4-mapped shortcut, `toArpa` agrees with the
specification's nibble-reversal description. -/
theorem ipv6ToArpa_spec {n : Nat} (hn : n < 2 ^ 128) (hm : n / 2 ^ 32 ≠ 0xffff) :
    ipv6ToArpa n = arpaSpecIPv6 n := by
  have hb : ipv6ExpandedAddress n =
      joinSep ':' (((v6Groups (n : Int)).map natToHex).map padTo4) := by
    simp only [ipv6ExpandedAddress, bigIntToIp]
    rw [if_neg (by omega), if_neg (fun hc => hm ((mapped_test_natCast n).mp hc))]
    simp [List.map_map]
  have hnc : ∀ p ∈ ((v6Groups (n : Int)).map natToHex).map padTo4, ':' ∉ p := by
    intro p hp
    rcases List.mem_map.mp hp with ⟨q, hq, rfl⟩
    rcases List.mem_map.mp hq with ⟨g, _, rfl⟩
    intro hc
    exact (hex_ne_special (padded_all_hex g ':' hc)).1 rfl
  simp only [ipv6ToArpa]
  rw [hb, filter_joinSep hnc, v6Groups_natCast,
    show List.range 8 = [0, 1, 2, 3, 4, 5, 6, 7] from rfl]
  simp only [List.map_cons, List.map_nil, List.join]
  norm_num
  rw [nibble_block n, nibble_block (n / 65536), nibble_block (n / 4294967296),
    nibble_block (n / 281474976710656), nibble_block (n / 18446744073709551616),
    nibble_block (n / 1208925819614629174706176),
    nibble_block (n / 79228162514264337593543950336),
    nibble_block (n / 5192296858534827628530496329220096)]
  simp only [arpaSpecIPv6,
    show List.range 32 =
      [0, 1, 2, 3, 4, 5, 6, 7, 8, 9, 10, 11, 12, 13, 14, 15, 16, 17, 18, 19,
       20, 21, 22, 23, 24, 25, 26, 27, 28, 29, 30, 31] from rfl,
    List.map_cons, List.map_nil]
  norm_num [Nat.div_div_eq_div_mul]

/-- Combined IPv6 integer round trip, mapped range included, for both
values of the `compress` flag. -/
theorem ipv6_roundtrip_all {m : Nat} (hm : m < 2 ^ 128) (compress : Bool) :
    ipv6ToBigInt (bigIntToIp (m : Int) 6 compress) = some m := by
  by_cases hd : m / 2 ^ 32 = 0xffff
  · exact ipv6_mapped_roundtrip (by omega) (by omega) compress
  · cases compress
    · exact ipv6_expanded_roundtrip hm hd
    · exact ipv6_compressed_roundtrip hm hd

/-! ### The claims -/

set_option maxRecDepth 10000

/-- C1: the spec says `fromBigInt` fails with `InvalidAddress` for every
integer outside `[0, 2^bits - 1]`.  It does not: `bigIntToIp` masks the
operand with shift-and-mask BigInt arithmetic, so `fromBigInt` silently wraps
any integer to its low 32 / 128 bits and always succeeds.  What is true is
the amended statement: for every integer `v`, `fromBigInt` succeeds and the
stored canonical integer is `v mod 2^bits`, which always lies inside the
version's range. -/
theorem claim_C1 (v : Int) :
    ipv4FromBigInt v = some (jsMask v 32) ∧
    ipv6FromBigInt v = some (jsMask v 128) ∧
    jsMask v 32 < 2 ^ 32 ∧ jsMask v 128 < 2 ^ 128 :=
  ⟨ipv4FromBigInt_wrap v, ipv6FromBigInt_wrap v, jsMask_lt v 32, jsMask_lt v 128⟩

/-- C1 (counterexample to the spec's sentence): `2^32` is outside the IPv4
range and `2^128` outside the IPv6 range, yet both `fromBigInt` calls succeed,
wrapping to `0`. -/
theorem claim_C1_counterexample :
    ipv4FromBigInt ((2 : Int) ^ 32) = some 0 ∧
    ipv6FromBigInt ((2 : Int) ^ 128) = some 0 := by decide

/-- C2: validation and codec are *not* in lockstep, in either direction.
`"1.2.3.04"` is rejected by `IPV4_ADDRESS_REGEX` (leading zero) but parsed
by `ipv4ToBigInt`, and `"1:2:3:4:5:6:1.2.3.4"` matches
`IPV6_VALIDATION_REGEX` (six segments before an embedded quad) but
`ipv6ToBigInt` throws on it, because its own mapped pattern only accepts the
`::ffff:` prefix and the fragment `1.2.3.4` fails the hex-group check. -/
theorem claim_C2 :
    (ipv4IsValid "1.2.3.04".toList = false ∧
      ipv4ToBigInt "1.2.3.04".toList = some 16909060) ∧
    (ipv6IsValid "1:2:3:4:5:6:1.2.3.4".toList = true ∧
      ipv6ToBigInt "1:2:3:4:5:6:1.2.3.4".toList = none) := by decide

/-- C3: the spec says a lone zero group is never compressed to `::`, but
`compressIPv6` selects any longest run of `"0"` fragments including runs of
size 1: the value with groups `1:0:2:3:4:5:6:7` (no zero run longer than one)
is rendered `"1::2:3:4:5:6:7"`, with `::` standing for the single zero
group. -/
theorem claim_C3 :
    ipv6Address 0x00010000000200030004000500060007 = "1::2:3:4:5:6:7".toList := by
  decide

/-- C4: the spec says a bare address literal with no `/` is accepted with the
maximal prefix, and that a trailing-garbage prefix part fails.  The code does
the opposite on both counts: `split('/')` of a bare address has no second
fragment, so the falsy check throws (`new CIDR('192.168.1.1')` fails), while
`parseInt` stops at the first non-digit, so `"10.0.0.0/24abc"` is accepted
as prefix 24. -/
theorem claim_C4 :
    cidrNew "192.168.1.1".toList = none ∧
    cidrNew "10.0.0.0/24abc".toList = some ⟨.v4, 167772160, 24⟩ := by decide

/-- C5: for an address *instance* of a different version, `contains` indeed
returns `false` without error (the amended, true part of the claim).  For a
*literal string* of a different version the claim fails: the string is parsed
with the constructor of the block's own version, which throws on it — see the
counterexample. -/
theorem claim_C5 (c : CIDRm) (ip : IPm) (h : ip.ver ≠ c.ver) :
    cidrContains c (.inst ip) = some false := by
  simp [cidrContains, h]

theorem claim_C5_witness :
    (IPm.mk .v6 1).ver ≠ (CIDRm.mk .v4 3232235876 24).ver ∧
    cidrContains ⟨.v4, 3232235876, 24⟩ (.inst ⟨.v6, 1⟩) = some false :=
  ⟨by decide, claim_C5 _ _ (by decide)⟩

/-- C5 (counterexample to the literal-string half): `"192.168.1.100/24"`
constructs a v4 block, but `contains("::1")` parses the IPv6 literal with the
IPv4 constructor and throws instead of returning `false`. -/
theorem claim_C5_counterexample :
    cidrNew "192.168.1.100/24".toList = some ⟨.v4, 3232235876, 24⟩ ∧
    cidrContains ⟨.v4, 3232235876, 24⟩ (.lit "::1".toList) = none := by decide

/-- C6: outside the IPv4-mapped range the claim holds: `toArpa` produces the
32 reversed zero-padded nibbles dot-joined with the `.ip6.arpa` suffix
(`arpaSpecIPv6`, written from the spec's words).  Inside the mapped range it
does not — `expandedAddress` renders `::ffff:a.b.c.d`, so stripping colons
leaves dots and dotted decimal text instead of 32 nibbles — hence the
amendment excludes `n / 2^32 = 0xffff`. -/
theorem claim_C6 {n : Nat} (hn : n < 2 ^ 128) (hm : n / 2 ^ 32 ≠ 0xffff) :
    ipv6ToArpa n = arpaSpecIPv6 n :=
  ipv6ToArpa_spec hn hm

theorem claim_C6_witness :
    (1 : Nat) < 2 ^ 128 ∧ (1 : Nat) / 2 ^ 32 ≠ 0xffff ∧
    ipv6ToArpa 1 = arpaSpecIPv6 1 :=
  ⟨by decide, by decide, claim_C6 (by decide) (by decide)⟩

/-- C6 (counterexample to "including the IPv4-mapped range"): for
`::ffff:0.0.0.1` the rendered ARPA text is not the spec's nibble form. -/
theorem claim_C6_counterexample :
    281470681743361 / 2 ^ 32 = 0xffff ∧
    ipv6ToArpa 281470681743361 ≠ arpaSpecIPv6 281470681743361 := by decide

/-- C7: at the codec level the claim holds for zone texts that contain
neither a `%` nor a line terminator: appending `%zone` leaves the parsed
value unchanged and the zone is never inspected.  Both restrictions are
necessary: the greedy regex `/(.+)%(.+)/` splits at the *last* percent, so a
zone containing `%` changes the address part, and `.` does not match line
terminators, so a zone starting with one (e.g. `'\n'`) makes `exec` return
`null` and the source crash on `null![1]` — see the counterexample.  The
amendment also drops the class-level reading: `IPV6_VALIDATION_REGEX` has no
`%` branch, so `new IPv6('::1%eth0')` throws even though the codec strips
the zone. -/
theorem claim_C7 {s z : Str} {v : Nat} (hs : '%' ∉ s) (hsne : s ≠ [])
    (hst : ∀ c ∈ s, isLineTerm c = false) (hz : '%' ∉ z) (hzne : z ≠ [])
    (hzt : ∀ c ∈ z, isLineTerm c = false) (hv : ipv6ToBigInt s = some v) :
    ipv6ToBigInt (s ++ '%' :: z) = some v := by
  rw [ipv6ToBigInt_zone hs hsne hst hz hzne hzt, ← ipv6ToBigInt_no_percent hs, hv]

theorem claim_C7_witness :
    '%' ∉ "::1".toList ∧ "::1".toList ≠ [] ∧
    (∀ c ∈ "::1".toList, isLineTerm c = false) ∧ '%' ∉ "eth0".toList ∧
    "eth0".toList ≠ [] ∧ (∀ c ∈ "eth0".toList, isLineTerm c = false) ∧
    ipv6ToBigInt "::1".toList = some 1 ∧
    ipv6ToBigInt ("::1".toList ++ '%' :: "eth0".toList) = some 1 :=
  ⟨by decide, by decide, by decide, by decide, by decide, by decide, by decide,
    claim_C7 (by decide) (by decide) (by decide) (by decide) (by decide)
      (by decide) (by decide)⟩

/-- C7 (counterexample): `"::1"` is a valid literal, yet `new IPv6` on the
zoned literal `"::1%eth0"` throws (the validation regex has no zone branch);
the raw codec fails on the non-empty zone `"a%b"` (the greedy split moves
the last `%` into the address part); and it fails on the non-empty zone
`"\n"` (line terminators match no `.`, so `exec` returns `null` and
`null![1]` crashes). -/
theorem claim_C7_counterexample :
    ipv6IsValid "::1".toList = true ∧
    ipv6New ("::1".toList ++ '%' :: "eth0".toList) = none ∧
    ipv6ToBigInt ("::1".toList ++ '%' :: "a%b".toList) = none ∧
    ipv6ToBigInt ("::1".toList ++ '%' :: ['\n']) = none := by decide

/-- C8: the integer round trip holds: every `n < 2^32` survives
`ipv4ToBigInt ∘ bigIntToIp` and every `m < 2^128` survives
`ipv6ToBigInt ∘ bigIntToIp`, for both values of the `compress` flag (the
flag is ignored for version 4, and the IPv4-mapped shortcut applies to both
flags for version 6). -/
theorem claim_C8 (n m : Nat) (hn : n < 2 ^ 32) (hm : m < 2 ^ 128)
    (compress : Bool) :
    ipv4ToBigInt (bigIntToIp (n : Int) 4 compress) = some n ∧
    ipv6ToBigInt (bigIntToIp (m : Int) 6 compress) = some m :=
  ⟨ipv4_roundtrip hn, ipv6_roundtrip_all hm compress⟩

theorem claim_C8_witness :
    (3232235777 : Nat) < 2 ^ 32 ∧ (281470681743361 : Nat) < 2 ^ 128 ∧
    (ipv4ToBigInt (bigIntToIp ((3232235777 : Nat) : Int) 4 true) =
        some 3232235777 ∧
      ipv6ToBigInt (bigIntToIp ((281470681743361 : Nat) : Int) 6 true) =
        some 281470681743361) :=
  ⟨by decide, by decide,
    claim_C8 3232235777 281470681743361 (by decide) (by decide) true⟩

/-- C9: every successfully constructed CIDR block satisfies the range
invariants: `network ≤ last`, `first ≤ last`, `contains(network)` and
`contains(broadcast)` hold, and `first = network ∧ last = broadcast` for
every IPv6 prefix and for IPv4 prefixes of at least 31. -/
theorem claim_C9 {s : Str} {c : CIDRm} (h : cidrNew s = some c) :
    cidrNetwork c ≤ cidrLast c ∧ cidrFirst c ≤ cidrLast c ∧
    cidrContains c (.inst ⟨c.ver, cidrNetwork c⟩) = some true ∧
    cidrContains c (.inst ⟨c.ver, cidrBroadcast c⟩) = some true ∧
    ((c.ver = .v6 ∨ 31 ≤ c.plen) →
      cidrFirst c = cidrNetwork c ∧ cidrLast c = cidrBroadcast c) :=
  cidr_invariants c (cidrNew_plen h)

theorem claim_C9_witness :
    cidrNew "10.0.0.0/24".toList = some ⟨.v4, 167772160, 24⟩ ∧
    (cidrNetwork ⟨.v4, 167772160, 24⟩ ≤ cidrLast ⟨.v4, 167772160, 24⟩ ∧
      cidrFirst ⟨.v4, 167772160, 24⟩ ≤ cidrLast ⟨.v4, 167772160, 24⟩ ∧
      cidrContains ⟨.v4, 167772160, 24⟩
        (.inst ⟨.v4, cidrNetwork ⟨.v4, 167772160, 24⟩⟩) = some true ∧
      cidrContains ⟨.v4, 167772160, 24⟩
        (.inst ⟨.v4, cidrBroadcast ⟨.v4, 167772160, 24⟩⟩) = some true ∧
      ((IPVer.v4 = IPVer.v6 ∨ 31 ≤ 24) →
        cidrFirst ⟨.v4, 167772160, 24⟩ = cidrNetwork ⟨.v4, 167772160, 24⟩ ∧
        cidrLast ⟨.v4, 167772160, 24⟩ = cidrBroadcast ⟨.v4, 167772160, 24⟩)) :=
  ⟨by decide, @claim_C9 "10.0.0.0/24".toList ⟨.v4, 167772160, 24⟩ (by decide)⟩

/-- C10: for every value in the IPv4-mapped range (`n >> 32 = 0xffff`), the
`expandedAddress` getter returns the `::ffff:a.b.c.d` mapped form — the
shortcut in `bigIntToIp` fires before the `compress` flag is consulted — so
it coincides with the compressed `address` getter instead of showing eight
zero-padded groups. -/
theorem claim_C10 {n : Nat} (hd : n / 2 ^ 32 = 0xffff) :
    ipv6ExpandedAddress n =
      (':' :: ':' :: 'f' :: 'f' :: 'f' :: 'f' :: ':' :: []) ++
        bigIntToIpv4 ((n % 2 ^ 32 : Nat) : Int) ∧
    ipv6ExpandedAddress n = ipv6Address n := by
  have hmap := (mapped_test_natCast n).mpr hd
  have h1 : ipv6ExpandedAddress n =
      (':' :: ':' :: 'f' :: 'f' :: 'f' :: 'f' :: ':' :: []) ++
        bigIntToIpv4 ((n % 2 ^ 32 : Nat) : Int) := by
    simp only [ipv6ExpandedAddress, bigIntToIp]
    rw [if_neg (by omega), if_pos hmap, jsMask_natCast]
  have h2 : ipv6Address n =
      (':' :: ':' :: 'f' :: 'f' :: 'f' :: 'f' :: ':' :: []) ++
        bigIntToIpv4 ((n % 2 ^ 32 : Nat) : Int) := by
    simp only [ipv6Address, bigIntToIp]
    rw [if_neg (by omega), if_pos hmap, jsMask_natCast]
  exact ⟨h1, h1.trans h2.symm⟩

theorem claim_C10_witness :
    281470681743361 / 2 ^ 32 = 0xffff ∧
    ipv6ExpandedAddress 281470681743361 = ipv6Address 281470681743361 :=
  ⟨by decide, (claim_C10 (by decide)).2⟩

end IPAddr
